import Mathlib

/-! Verification of the `FormService` class from
`projects/ngx-nested-forms/src/lib/ngx-nested-forms.service.ts`.

The service maintains one root Angular `FormGroup` (`mainForm`), an append-only
event history, and an rxjs `Subject` broadcasting registration events.  The
shallow embedding below models:

* an `AbstractControl` as `FNode`: either a `ctrl` (a `FormControl` leaf,
  identified by a numeric tag and carrying its disabled flag) or a `group`
  (a `FormGroup`: a disabled flag plus an insertion-ordered association list
  of children, the iteration order of the backing JS object for
  non-array-index string keys); where the service itself rebuilds the
  children object through `Object.keys`/`Object.entries` (the
  `insertAtIndex` splice of lines 192–208), the embedding applies the full
  ECMA-262 enumeration order (`jsEntries`: array-index-like keys first, in
  ascending numeric order, then string keys in insertion order);
* in-place mutation of a group reached through the tree as a functional
  write-back along the same path the code resolves (`updateG` / `modifyNode`);
* Angular library primitives used by the service with their documented
  semantics: `FormGroup.contains` checks the literal key,
  `addControl` registers only when the key is absent, `removeControl`
  deletes the key, `setControl` deletes then re-registers (so an existing
  key moves to the end), and `AbstractControl.get` applied to a string
  SPLITS it on `'.'` and walks the resulting segments (dot-delimited
  lookup is part of Angular's `get` contract);
* the rxjs `Subject` as the list of event sequences delivered so far to each
  live subscriber: `next` appends the event to every current subscriber and
  a new subscriber starts with the empty sequence (a plain `Subject` does
  not replay past events).

JS string/array primitives (`String.prototype.split('.')`,
`Array.prototype.join('.')`, `Array.prototype.pop`) are embedded as
executable character-list functions so that every definition evaluates
inside the kernel.
-/

set_option autoImplicit false

/-- JS `String.prototype.split(sep)` for a one-character separator, on the
character list: `"".split('.') = [""]`, `"a..b".split('.') = ["a","","b"]`. -/
def splitChar (c : Char) : List Char → List (List Char)
  | [] => [[]]
  | x :: xs =>
    match splitChar c xs with
    | [] => [[]]
    | h :: t => if x = c then [] :: h :: t else (x :: h) :: t

/-- JS `path.split('.')` on strings. -/
def dotSplit (s : String) : List String := (splitChar '.' s.data).map String.mk

/-- JS `Array.prototype.join('.')` on character lists:
`[].join('.') = ""`, `[a].join('.') = a`, `[a,b].join('.') = a ++ "." ++ b`. -/
def joinChar (c : Char) : List (List Char) → List Char
  | [] => []
  | [l] => l
  | l :: rest => l ++ c :: joinChar c rest

/-- JS `segments.join('.')` on strings (used for `FormEvent.path`). -/
def dotJoin (ss : List String) : String := ⟨joinChar '.' (ss.map String.data)⟩

/-- An Angular `AbstractControl`: a `FormControl` leaf (`ctrl`, tagged by a
numeric identity, carrying its disabled status) or a `FormGroup` (`group`,
carrying its disabled status and its insertion-ordered children). -/
inductive FNode where
  | ctrl (tag : Nat) (disabled : Bool)
  | group (disabled : Bool) (children : List (String × FNode))

/-- Tests `instanceof FormGroup`. -/
def FNode.isGroup : FNode → Bool
  | .group _ _ => true
  | .ctrl _ _ => false

/-- Children of a node (`FormGroup.controls`); a leaf has none. -/
def FNode.childrenD : FNode → List (String × FNode)
  | .group _ cs => cs
  | .ctrl _ _ => []

/-- Lookup of `controls[k]` on an ordered association list (first — and in any state
reachable through the service, only — entry with that key). -/
def lookupC : List (String × FNode) → String → Option FNode
  | [], _ => none
  | p :: rest, k => if p.1 = k then some p.2 else lookupC rest k

/-- Embeds `FormGroup.contains(k)` / `controls.hasOwnProperty(k)`: literal key test. -/
def containsC (cs : List (String × FNode)) (k : String) : Bool :=
  cs.any (fun p => p.1 = k)

/-- Embeds `delete controls[k]` (`FormGroup.removeControl`): drop the key, keeping
the relative order of the remaining entries. -/
def removeC (cs : List (String × FNode)) (k : String) : List (String × FNode) :=
  cs.filter (fun p => ¬(p.1 = k))

/-- Embeds `controls[k] = v` for a key already present: the entry keeps its position
(JS object assignment to an existing key does not move it). -/
def setC (cs : List (String × FNode)) (k : String) (v : FNode) : List (String × FNode) :=
  cs.map (fun p => if p.1 = k then (k, v) else p)

/-- Embeds `FormGroup.addControl(k, v)` (Angular `registerControl`): a no-op when the
key already exists, otherwise appends at the end of the iteration order. -/
def addC (cs : List (String × FNode)) (k : String) (v : FNode) : List (String × FNode) :=
  if containsC cs k then cs else cs ++ [(k, v)]

/-- Embeds `FormGroup.setControl(k, v)`: `delete controls[k]` then re-register, so the
new entry always sits at the end of the iteration order. -/
def setControlC (cs : List (String × FNode)) (k : String) (v : FNode) : List (String × FNode) :=
  removeC cs k ++ [(k, v)]

/-- Walk a list of literal path segments from a node, taking one child per
segment (Angular's `_find` reduction: a `FormGroup` looks the segment up in
`controls`, a `FormControl` yields `null`). -/
def walkLit : FNode → List String → Option FNode
  | n, [] => some n
  | .group _ cs, k :: ks =>
    match lookupC cs k with
    | some c => walkLit c ks
    | none => none
  | .ctrl _ _, _ :: _ => none

/-- Angular `AbstractControl.get` applied to a string key: the string is first
split on `'.'` and the resulting segments are walked (`get('a.b')` resolves the
nested child `b` of `a`, NOT a child literally named `"a.b"`). -/
def getAC (n : FNode) (key : String) : Option FNode := walkLit n (dotSplit key)

/-- Literal-segment resolution requiring every node reached — the final one
included — to be a `FormGroup`; returns the resolved group.  This is how the
service's `getNestedForm` walk acts on the tree once every dotted segment is
expanded (proved below in `getNestedFormGo_eq_resolveG`). -/
def resolveG : FNode → List String → Option FNode
  | n, [] => if n.isGroup then some n else none
  | .group _ cs, k :: ks =>
    match lookupC cs k with
    | some c => resolveG c ks
    | none => none
  | .ctrl _ _, _ :: _ => none

/-- Functional image of mutating the group resolved at a literal path: apply
`f` to the children of the group at the path (requiring, as `getNestedForm`
does, that the walk stays inside `FormGroup`s) and rebuild the tree along the
same path.  `f` may refuse (`none`), in which case nothing is rebuilt. -/
def updateG (f : List (String × FNode) → Option (List (String × FNode))) :
    FNode → List String → Option FNode
  | .group d cs, [] => (f cs).map (FNode.group d)
  | .group d cs, k :: ks =>
    match lookupC cs k with
    | some c => (updateG f c ks).map (fun c' => FNode.group d (setC cs k c'))
    | none => none
  | .ctrl _ _, _ => none

/-- Functional image of mutating the single node at a literal path (used for
`disable()` reached through `form.get(...)`): apply `f` to the node reached
and rebuild along the path; `none` when the path does not resolve. -/
def modifyNode (f : FNode → FNode) : FNode → List String → Option FNode
  | n, [] => some (f n)
  | .group d cs, k :: ks =>
    match lookupC cs k with
    | some c => (modifyNode f c ks).map (fun c' => FNode.group d (setC cs k c'))
    | none => none
  | .ctrl _ _, _ :: _ => none

mutual

/-- Angular `AbstractControl.disable()`: marks the control disabled; on a
`FormGroup` the status propagates to every descendant. -/
def disableNode : FNode → FNode
  | .ctrl t _ => .ctrl t true
  | .group _ cs => .group true (disableChildren cs)

/-- Applies `disable()` to every child of a group. -/
def disableChildren : List (String × FNode) → List (String × FNode)
  | [] => []
  | (k, n) :: rest => (k, disableNode n) :: disableChildren rest

end

/-- Embeds `FormEvent.type`: `'form' | 'formElement'`
(`models/form-event.interface.ts`). -/
inductive EventType where
  | form
  | formElement
deriving DecidableEq

/-- Embeds `FormEvent` (`models/form-event.interface.ts`): event type, dotted path,
and — for `'formElement'` events only — the registered control. -/
structure FormEvent where
  type : EventType
  path : String
  control : Option FNode

/-- A path argument as the service receives it: `string | string[]`. -/
inductive FormPath where
  | str (s : String)
  | arr (segs : List String)

/-- Embeds `normalizePath` (service lines 464–469): a string is split on `'.'`, an
array is returned as is. -/
def normalizePath : FormPath → List String
  | .str s => dotSplit s
  | .arr segs => segs

/-- Expansion of normalized segments into the literal segments the tree walk
actually traverses, since Angular's `get` splits each string segment on `'.'`
again. -/
def flatSegs (segs : List String) : List String :=
  (segs.map dotSplit).flatten

/-- The fourth parameter of `registerFormElement`:
`boolean | { overwrite?: boolean; insertAtIndex?: number }`. -/
inductive RegisterOpts where
  | bool (b : Bool)
  | opts (overwrite : Option Bool) (insertAtIndex : Option Int)

/-- Computes `overwrite` exactly as the code does: the bare boolean, or
`options.overwrite ?? false`. -/
def overwriteOf : RegisterOpts → Bool
  | .bool b => b
  | .opts ov _ => ov.getD false

/-- Computes `insertAtIndex` exactly as the code does: `undefined` for the bare-boolean
form, otherwise `options.insertAtIndex`. -/
def insertAtIndexOf : RegisterOpts → Option Int
  | .bool _ => none
  | .opts _ i => i

/-- The `keys.forEach((key, i) => ...)` loop of `registerFormElement`
(lines 196–201): rebuilds the key list, inserting `(cn, c)` just before the
entry at position `idx`; `i` is the current `forEach` index. -/
def spliceLoop (idx : Nat) (cn : String) (c : FNode) :
    Nat → List (String × FNode) → List (String × FNode)
  | _, [] => []
  | i, kv :: rest =>
    if i = idx
    then (cn, c) :: kv :: spliceLoop idx cn c (i + 1) rest
    else kv :: spliceLoop idx cn c (i + 1) rest

/-- Numeric value of a decimal digit string (used for the ECMA-262
array-index test and ordering). -/
def numVal (l : List Char) : Nat :=
  l.foldl (fun a c => a * 10 + (c.toNat - 48)) 0

/-- Tests whether a property key is an ECMA-262 array index: a canonical
decimal numeral (digits only, no leading zero except `"0"` itself) whose
value is below `2^32 - 1`.  JS objects enumerate such keys FIRST, in
ascending numeric order, before all other string keys. -/
def isArrayIndex (k : String) : Bool :=
  match k.data with
  | [] => false
  | c :: rest =>
    (c :: rest).all Char.isDigit &&
    (rest.isEmpty || !(c = '0')) &&
    decide (numVal (c :: rest) < 4294967295)

/-- Insertion step of the numeric-order sort of array-index keys. -/
def insertByVal (p : String × FNode) : List (String × FNode) → List (String × FNode)
  | [] => [p]
  | q :: rest =>
    if numVal p.1.data < numVal q.1.data
    then p :: q :: rest
    else q :: insertByVal p rest

/-- Sorts entries by the numeric value of their keys (insertion sort; the
keys of one object are distinct, so ties cannot occur). -/
def sortByVal : List (String × FNode) → List (String × FNode)
  | [] => []
  | p :: rest => insertByVal p (sortByVal rest)

/-- ECMA-262 ordinary-object enumeration order of an insertion sequence:
array-index keys first, in ascending numeric order, then the remaining
string keys in insertion order.  This is the order `Object.keys` /
`Object.entries` traverse. -/
def jsEntries (cs : List (String × FNode)) : List (String × FNode) :=
  sortByVal (cs.filter (fun p => isArrayIndex p.1)) ++
    cs.filter (fun p => !isArrayIndex p.1)

/-- The raw `newControls` insertion sequence built by lines 196–205: run the
`forEach` loop from index 0 over the enumerated key snapshot, then append at
the end when `insertAtIndex >= keys.length`. -/
def spliceRaw (keys : List (String × FNode)) (idx : Nat) (cn : String) (c : FNode) :
    List (String × FNode) :=
  let base := spliceLoop idx cn c 0 keys
  if keys.length ≤ idx then base ++ [(cn, c)] else base

/-- The full `insertAtIndex` rebuild (lines 192–208): `Object.keys` snapshots
the current children in ECMA-262 enumeration order (`jsEntries`), the
`forEach` builds the `newControls` object (`spliceRaw`), and removing every
key then re-adding via `Object.entries(newControls)` leaves the children in
the enumeration order of that object — `jsEntries` again, which moves an
array-index-like control name ahead of all string keys. -/
def spliceChildren (cs : List (String × FNode)) (idx : Nat) (cn : String) (c : FNode) :
    List (String × FNode) :=
  jsEntries (spliceRaw (jsEntries cs) idx cn c)

/-- The body of `registerFormElement` acting on the children of the resolved
group (lines 185–211): `none` exactly when the key exists and `overwrite` is
false; otherwise the new children.  A non-negative `insertAtIndex` splices at
that position (`i.toNat` — the `forEach` index `i === insertAtIndex`
comparison against a non-negative integer), anything else appends via
`addControl`. -/
def registerInGroup (controlName : String) (control : FNode) (ow : Bool)
    (idx : Option Int) (cs : List (String × FNode)) :
    Option (List (String × FNode)) :=
  let exs := containsC cs controlName
  if !exs || ow then
    let cs0 := if exs then removeC cs controlName else cs
    some (match idx with
      | some i => if 0 ≤ i then spliceChildren cs0 i.toNat controlName control
                  else addC cs0 controlName control
      | none => addC cs0 controlName control)
  else none

/-- The state of one `FormService` instance: the children of the private root
`mainForm` group, the `eventHistory` array, and — for the `Subject` — the
events delivered so far to each live subscriber, in delivery order. -/
structure FormService where
  mainForm : List (String × FNode)
  eventHistory : List FormEvent
  subscribers : List (List FormEvent)

/-- The private root `mainForm = fb.group({})` as a node. -/
def rootNode (s : FormService) : FNode := .group false s.mainForm

/-- A freshly constructed service: empty root group, empty history, no
subscribers. -/
def initService : FormService := ⟨[], [], []⟩

/-- Embeds `formEventSubject.next(ev)`: synchronously delivers `ev` once to every
currently subscribed observer. -/
def emitTo (subs : List (List FormEvent)) (ev : FormEvent) : List (List FormEvent) :=
  subs.map (fun l => l ++ [ev])

/-- Embeds `registerRootForms` (lines 115–120): `mainForm.setControl(name, formGroup)`,
push a `'form'` event, broadcast it.  (The TS signature restricts the second
argument to `FormGroup`; the embedding takes any node, which only enlarges the
state space the theorems quantify over.) -/
def registerRootForms (s : FormService) (name : String) (g : FNode) : FormService :=
  let ev : FormEvent := ⟨.form, name, none⟩
  { mainForm := setControlC s.mainForm name g
    eventHistory := s.eventHistory ++ [ev]
    subscribers := emitTo s.subscribers ev }

/-- Embeds `registerFormElement` (lines 167–223): normalize the path, resolve the
nested group (every step an `instanceof FormGroup` check over Angular's
dot-splitting `get` — embedded as `updateG` over the expanded literal
segments), fail with `null` when resolution fails or the key exists without
`overwrite`; otherwise mutate the group (`registerInGroup`), push exactly one
`'formElement'` event whose path is `[...normalizedPath, controlName].join('.')`,
broadcast it, and return it. -/
def registerFormElement (s : FormService) (path : FormPath) (controlName : String)
    (control : FNode) (optionsOrOverwrite : RegisterOpts) :
    FormService × Option FormEvent :=
  let normalizedPath := normalizePath path
  let ow := overwriteOf optionsOrOverwrite
  let idx := insertAtIndexOf optionsOrOverwrite
  match updateG (registerInGroup controlName control ow idx)
      (rootNode s) (flatSegs normalizedPath) with
  | some (.group _ cs') =>
    let ev : FormEvent := ⟨.formElement, dotJoin (normalizedPath ++ [controlName]), some control⟩
    ({ mainForm := cs'
       eventHistory := s.eventHistory ++ [ev]
       subscribers := emitTo s.subscribers ev }, some ev)
  | _ => (s, none)

/-- Embeds `removeFormElement` (lines 239–248): `keys.pop()` names the control
(`undefined` on an empty array, and an empty-string name fails the JS
truthiness test `controlName &&`), the rest resolves the parent group; when it
resolves and contains the key, the key is removed and the call returns `true`;
otherwise `false`.  No event, no history entry. -/
def removeFormElement (s : FormService) (path : FormPath) : FormService × Bool :=
  let keys := normalizePath path
  match keys.getLast? with
  | none => (s, false)
  | some controlName =>
    if controlName = "" then (s, false)
    else
      match updateG
          (fun cs => if containsC cs controlName then some (removeC cs controlName) else none)
          (rootNode s) (flatSegs keys.dropLast) with
      | some (.group _ cs') => ({ s with mainForm := cs' }, true)
      | _ => (s, false)

/-- The loop body of the service's `getControl` (lines 266–279): step through
the normalized segments with Angular's `get`, failing as soon as a segment
does not resolve. -/
def getControlGo : FNode → List String → Option FNode
  | c, [] => some c
  | c, k :: ks =>
    match getAC c k with
    | some c' => getControlGo c' ks
    | none => none

/-- Embeds `getControl` (lines 266–279). -/
def getControl (s : FormService) (path : FormPath) : Option FNode :=
  getControlGo (rootNode s) (normalizePath path)

/-- The loop body of the private `getNestedForm` (lines 441–454): step through
the normalized segments with Angular's `get`, additionally requiring each
resolved node to be `instanceof FormGroup`. -/
def getNestedFormGo : FNode → List String → Option FNode
  | g, [] => some g
  | g, k :: ks =>
    match getAC g k with
    | some c => if c.isGroup then getNestedFormGo c ks else none
    | none => none

/-- Embeds `getNestedForm` (lines 441–454). -/
def getNestedForm (s : FormService) (path : FormPath) : Option FNode :=
  getNestedFormGo (rootNode s) (normalizePath path)

/-- Embeds `getFormEventHistory` (lines 386–388). -/
def getFormEventHistory (s : FormService) : List FormEvent := s.eventHistory

/-- The `Object.keys(form.controls).forEach` loop of `disableAllExcept`
(lines 418–422): for each snapshot key not in `exceptions`, disable the node
that `form.get(controlName)` resolves — NOTE this re-splits the key on `'.'`,
and `?.` turns an unresolved lookup into a no-op. -/
def disableLoop (exceptions : List String) : FNode → List String → FNode
  | g, [] => g
  | g, cn :: rest =>
    let g' := if exceptions.contains cn then g
              else (modifyNode disableNode g (dotSplit cn)).getD g
    disableLoop exceptions g' rest

/-- Embeds `disableAllExcept` (lines 414–423): resolve `formPath` (a string) with
`getControl`; unless the result is a `FormGroup`, do nothing; otherwise run
the disable loop over the snapshot of the group's keys and write the mutated
group back at the resolved location. -/
def disableAllExcept (s : FormService) (formPath : String) (exceptions : List String) :
    FormService :=
  match getControl s (.str formPath) with
  | some (.group d cs) =>
    let g' := disableLoop exceptions (.group d cs) (cs.map Prod.fst)
    match modifyNode (fun _ => g') (rootNode s) (dotSplit formPath) with
    | some (.group _ root') => { s with mainForm := root' }
    | _ => s
  | _ => s

/-- One public operation on a service instance (the calls whose interleaving
the trace-level claims quantify over); `subscribe` is
`getFormEventObservable().subscribe(...)` attaching a fresh observer. -/
inductive Op where
  | registerRoot (name : String) (g : FNode)
  | registerElement (path : FormPath) (controlName : String) (control : FNode)
      (optionsOrOverwrite : RegisterOpts)
  | removeElement (path : FormPath)
  | disableExcept (formPath : String) (exceptions : List String)
  | subscribe

/-- State transition of one operation. -/
def step (s : FormService) : Op → FormService
  | .registerRoot name g => registerRootForms s name g
  | .registerElement p cn c o => (registerFormElement s p cn c o).1
  | .removeElement p => (removeFormElement s p).1
  | .disableExcept fp ex => disableAllExcept s fp ex
  | .subscribe => { s with subscribers := s.subscribers ++ [[]] }

/-- The events an operation emits from state `s`: one `'form'` event for a
root registration, the returned event (if any) for an element registration,
nothing for removals, disables, and subscriptions. -/
def emitted (s : FormService) : Op → List FormEvent
  | .registerRoot name _ => [⟨.form, name, none⟩]
  | .registerElement p cn c o => (registerFormElement s p cn c o).2.toList
  | .removeElement _ => []
  | .disableExcept _ _ => []
  | .subscribe => []

/-- Run a sequence of operations. -/
def run (s : FormService) : List Op → FormService
  | [] => s
  | op :: ops => run (step s op) ops

/-- The concatenation, in call order, of the events emitted by each operation
of a sequence. -/
def collect (s : FormService) : List Op → List FormEvent
  | [] => []
  | op :: ops => emitted s op ++ collect (step s op) ops

/-! Section: Character-level facts about JS `split('.')` / `join('.')` -/

theorem splitChar_ne_nil (c : Char) (l : List Char) : splitChar c l ≠ [] := by
  cases l with
  | nil => simp [splitChar]
  | cons x xs =>
    simp only [splitChar]
    cases h : splitChar c xs with
    | nil => simp
    | cons h t =>
      by_cases hx : x = c <;> simp [hx]

theorem not_mem_of_mem_splitChar {c : Char} {l l' : List Char}
    (h : l' ∈ splitChar c l) : c ∉ l' := by
  induction l generalizing l' with
  | nil => simp [splitChar] at h; simp [h]
  | cons x xs ih =>
    simp only [splitChar] at h
    cases hs : splitChar c xs with
    | nil => exact absurd hs (splitChar_ne_nil c xs)
    | cons hd tl =>
      rw [hs] at h
      by_cases hx : x = c
      · simp [hx] at h
        rcases h with h | h | h
        · simp [h]
        · exact ih (h ▸ hs ▸ List.mem_cons_self hd tl)
        · exact ih (hs ▸ List.mem_cons_of_mem hd h)
      · simp [hx] at h
        rcases h with h | h
        · subst h
          intro hmem
          rcases List.mem_cons.mp hmem with h1 | h1
          · exact hx h1.symm
          · exact ih (hs ▸ List.mem_cons_self hd tl) h1
        · exact ih (hs ▸ List.mem_cons_of_mem hd h)

theorem splitChar_of_not_mem {c : Char} {l : List Char} (h : c ∉ l) :
    splitChar c l = [l] := by
  induction l with
  | nil => rfl
  | cons x xs ih =>
    simp only [List.mem_cons, not_or] at h
    have hxc : ¬x = c := fun hh => h.1 hh.symm
    simp only [splitChar, ih h.2]
    simp [hxc]

theorem not_mem_of_splitChar_eq {c : Char} {l : List Char}
    (h : splitChar c l = [l]) : c ∉ l :=
  not_mem_of_mem_splitChar (h ▸ List.mem_singleton_self l)

theorem splitChar_append_cons {c : Char} {a : List Char} (b : List Char) (h : c ∉ a) :
    splitChar c (a ++ c :: b) = a :: splitChar c b := by
  induction a with
  | nil =>
    simp only [List.nil_append, splitChar]
    cases hs : splitChar c b with
    | nil => exact absurd hs (splitChar_ne_nil c b)
    | cons hd tl => simp
  | cons x xs ih =>
    simp only [List.mem_cons, not_or] at h
    have hih := ih h.2
    simp only [List.cons_append, splitChar]
    have hxc : ¬x = c := fun hh => h.1 hh.symm
    rw [show xs.append (c :: b) = xs ++ c :: b from rfl, hih]
    simp [hxc]

theorem splitChar_joinChar {c : Char} {ls : List (List Char)} (hne : ls ≠ [])
    (h : ∀ l ∈ ls, c ∉ l) : splitChar c (joinChar c ls) = ls := by
  induction ls with
  | nil => exact absurd rfl hne
  | cons l rest ih =>
    cases rest with
    | nil => exact splitChar_of_not_mem (h l (List.mem_singleton_self l))
    | cons l2 rest2 =>
      have hjoin : joinChar c (l :: l2 :: rest2) = l ++ c :: joinChar c (l2 :: rest2) := rfl
      rw [hjoin, splitChar_append_cons _ (h l (List.mem_cons_self _ _)),
        ih (by simp) (fun x hx => h x (List.mem_cons_of_mem _ hx))]

theorem dotSplit_dotJoin {ss : List String} (hne : ss ≠ [])
    (h : ∀ seg ∈ ss, dotSplit seg = [seg]) : dotSplit (dotJoin ss) = ss := by
  have hchar : ∀ l ∈ ss.map String.data, '.' ∉ l := by
    intro l hl
    rcases List.mem_map.mp hl with ⟨seg, hseg, rfl⟩
    have hs := h seg hseg
    unfold dotSplit at hs
    have : splitChar '.' seg.data = [seg.data] := by
      cases hsc : splitChar '.' seg.data with
      | nil => exact absurd hsc (splitChar_ne_nil _ _)
      | cons hd tl =>
        rw [hsc] at hs
        simp only [List.map_cons, List.cons.injEq] at hs
        have htl : tl = [] := by
          cases tl with
          | nil => rfl
          | cons a b => simp at hs
        subst htl
        have hd_eq : hd = seg.data := by
          have := hs.1
          calc hd = (String.mk hd).data := rfl
            _ = seg.data := by rw [this]
        simp [hd_eq]
    exact not_mem_of_splitChar_eq this
  unfold dotJoin dotSplit
  have hmapne : ss.map String.data ≠ [] := by
    cases ss with
    | nil => exact absurd rfl hne
    | cons a b => simp
  rw [show (String.mk (joinChar '.' (ss.map String.data))).data
      = joinChar '.' (ss.map String.data) from rfl,
    splitChar_joinChar hmapne hchar]
  rw [List.map_map]
  have : (String.mk ∘ String.data) = id := by
    funext s; cases s; rfl
  simp [this]

theorem dotSplit_dotfree {s : String} : ∀ seg ∈ dotSplit s, dotSplit seg = [seg] := by
  intro seg hseg
  unfold dotSplit at hseg
  rcases List.mem_map.mp hseg with ⟨l, hl, rfl⟩
  have : '.' ∉ l := not_mem_of_mem_splitChar hl
  unfold dotSplit
  rw [show (String.mk l).data = l from rfl, splitChar_of_not_mem this]
  rfl

theorem flatSegs_append (a b : List String) :
    flatSegs (a ++ b) = flatSegs a ++ flatSegs b := by
  simp [flatSegs]

theorem flatSegs_of_dotfree {segs : List String} (h : ∀ seg ∈ segs, dotSplit seg = [seg]) :
    flatSegs segs = segs := by
  induction segs with
  | nil => rfl
  | cons a rest ih =>
    have ha := h a (List.mem_cons_self _ _)
    have hrest := ih (fun x hx => h x (List.mem_cons_of_mem _ hx))
    simp only [flatSegs, List.map_cons, List.flatten_cons] at *
    rw [ha, hrest]
    rfl

theorem flatSegs_dotSplit (s : String) : flatSegs (dotSplit s) = dotSplit s :=
  flatSegs_of_dotfree dotSplit_dotfree

/-! Section: Association-list facts -/

theorem lookupC_append (l1 l2 : List (String × FNode)) (k : String) :
    lookupC (l1 ++ l2) k =
      match lookupC l1 k with
      | some v => some v
      | none => lookupC l2 k := by
  induction l1 with
  | nil => simp [lookupC]
  | cons p rest ih =>
    by_cases h : p.1 = k <;> simp [lookupC, h, ih]

theorem lookupC_eq_none_of_not_contains {cs : List (String × FNode)} {k : String}
    (h : containsC cs k = false) : lookupC cs k = none := by
  induction cs with
  | nil => rfl
  | cons p rest ih =>
    simp only [containsC, List.any_cons, Bool.or_eq_false_iff] at h
    have h1 : ¬p.1 = k := by simpa using h.1
    simp only [lookupC, if_neg h1]
    exact ih (by simp [containsC, h.2])

theorem containsC_eq_true_iff {cs : List (String × FNode)} {k : String} :
    containsC cs k = true ↔ ∃ p ∈ cs, p.1 = k := by
  simp [containsC]

theorem containsC_removeC (cs : List (String × FNode)) (k : String) :
    containsC (removeC cs k) k = false := by
  simp only [containsC, removeC, List.any_eq_false]
  intro p hp
  have := List.of_mem_filter hp
  simpa using this

theorem lookupC_addC_self {cs : List (String × FNode)} {k : String} (v : FNode)
    (h : containsC cs k = false) : lookupC (addC cs k v) k = some v := by
  simp only [addC, h, Bool.false_eq_true, if_false, if_neg]
  rw [lookupC_append, lookupC_eq_none_of_not_contains h]
  simp [lookupC]

theorem lookupC_setC_self {cs : List (String × FNode)} {k : String} {c : FNode} (v : FNode)
    (h : lookupC cs k = some c) : lookupC (setC cs k v) k = some v := by
  induction cs with
  | nil => simp [lookupC] at h
  | cons p rest ih =>
    by_cases hp : p.1 = k
    · simp [lookupC, setC, hp]
    · simp only [lookupC, if_neg hp] at h
      have hrec := ih h
      simp only [setC, List.map_cons] at hrec ⊢
      simp [lookupC, hp, hrec]

theorem setC_of_not_contains {cs : List (String × FNode)} {k : String} (v : FNode)
    (h : containsC cs k = false) : setC cs k v = cs := by
  induction cs with
  | nil => rfl
  | cons p rest ih =>
    simp only [containsC, List.any_cons, Bool.or_eq_false_iff] at h
    have h1 : ¬p.1 = k := by simpa using h.1
    simp only [setC, List.map_cons, if_neg h1]
    have := ih (by simp [containsC, h.2])
    simp only [setC] at this
    rw [this]

/-! Section: Splice characterization -/

theorem spliceLoop_of_lt {idx : Nat} (cn : String) (c : FNode) :
    ∀ (cs : List (String × FNode)) (j : Nat), idx < j → spliceLoop idx cn c j cs = cs := by
  intro cs
  induction cs with
  | nil => intro j _; rfl
  | cons kv rest ih =>
    intro j hj
    have : ¬j = idx := by omega
    simp only [spliceLoop, if_neg this]
    rw [ih (j + 1) (by omega)]

theorem spliceLoop_spec {idx : Nat} (cn : String) (c : FNode) :
    ∀ (cs : List (String × FNode)) (j : Nat), j ≤ idx →
      spliceLoop idx cn c j cs =
        if idx - j < cs.length
        then cs.take (idx - j) ++ (cn, c) :: cs.drop (idx - j)
        else cs := by
  intro cs
  induction cs with
  | nil => intro j _; simp [spliceLoop]
  | cons kv rest ih =>
    intro j hj
    by_cases hje : j = idx
    · subst hje
      simp only [spliceLoop, if_pos rfl]
      rw [spliceLoop_of_lt cn c rest (j + 1) (by omega)]
      simp
    · have hlt : j < idx := lt_of_le_of_ne hj hje
      simp only [spliceLoop, if_neg (by omega : ¬j = idx)]
      rw [ih (j + 1) (by omega)]
      have hsub : idx - j = (idx - (j + 1)) + 1 := by omega
      by_cases hc : idx - (j + 1) < rest.length
      · rw [if_pos hc, if_pos (by simp; omega)]
        simp [hsub]
      · rw [if_neg hc, if_neg (by simp; omega)]

theorem spliceRaw_eq (cs : List (String × FNode)) (idx : Nat) (cn : String) (c : FNode) :
    spliceRaw cs idx cn c =
      cs.take (min idx cs.length) ++ (cn, c) :: cs.drop (min idx cs.length) := by
  unfold spliceRaw
  rw [spliceLoop_spec cn c cs 0 (Nat.zero_le idx)]
  simp only [Nat.sub_zero]
  by_cases h : cs.length ≤ idx
  · have h1 : ¬idx < cs.length := by omega
    have hmin : min idx cs.length = cs.length := by omega
    simp [h, h1, hmin]
  · have h1 : idx < cs.length := by omega
    have hmin : min idx cs.length = idx := by omega
    simp [h, h1, hmin]

theorem mem_insertByVal {p q : String × FNode} {l : List (String × FNode)} :
    q ∈ insertByVal p l ↔ q = p ∨ q ∈ l := by
  induction l with
  | nil => simp [insertByVal]
  | cons r rest ih =>
    simp only [insertByVal]
    by_cases h : numVal p.1.data < numVal r.1.data
    · simp [h]
    · simp only [h, if_false, List.mem_cons, ih]
      tauto

theorem mem_sortByVal {q : String × FNode} {l : List (String × FNode)} :
    q ∈ sortByVal l ↔ q ∈ l := by
  induction l with
  | nil => simp [sortByVal]
  | cons p rest ih =>
    simp [sortByVal, mem_insertByVal, ih]

theorem mem_jsEntries {cs : List (String × FNode)} {p : String × FNode} :
    p ∈ jsEntries cs ↔ p ∈ cs := by
  unfold jsEntries
  rw [List.mem_append, mem_sortByVal]
  constructor
  · rintro (hp | hp) <;> exact List.mem_of_mem_filter hp
  · intro hp
    by_cases hi : isArrayIndex p.1 = true
    · exact Or.inl (List.mem_filter.mpr ⟨hp, hi⟩)
    · exact Or.inr (List.mem_filter.mpr ⟨hp, by simpa using hi⟩)

theorem jsEntries_of_no_index {cs : List (String × FNode)}
    (h : ∀ p ∈ cs, isArrayIndex p.1 = false) : jsEntries cs = cs := by
  unfold jsEntries
  have h1 : cs.filter (fun p => isArrayIndex p.1) = [] := by
    rw [List.filter_eq_nil_iff]
    intro p hp
    simp [h p hp]
  have h2 : cs.filter (fun p => !isArrayIndex p.1) = cs := by
    rw [List.filter_eq_self]
    intro p hp
    simp [h p hp]
  rw [h1, h2]
  rfl

theorem jsEntries_length (cs : List (String × FNode)) :
    (jsEntries cs).length = cs.length := by
  have hsort : ∀ l : List (String × FNode), (sortByVal l).length = l.length := by
    intro l
    induction l with
    | nil => rfl
    | cons p rest ih =>
      have hins : ∀ (q : String × FNode) (m : List (String × FNode)),
          (insertByVal q m).length = m.length + 1 := by
        intro q m
        induction m with
        | nil => rfl
        | cons r mr ihm =>
          simp only [insertByVal]
          by_cases h : numVal q.1.data < numVal r.1.data
          · simp [h]
          · simp [h, ihm]
      simp [sortByVal, hins, ih]
  have hsplit : ∀ l : List (String × FNode),
      (l.filter (fun p => isArrayIndex p.1)).length +
        (l.filter (fun p => !isArrayIndex p.1)).length = l.length := by
    intro l
    induction l with
    | nil => rfl
    | cons p rest ih =>
      by_cases h : isArrayIndex p.1 = true <;> simp [List.filter_cons, h] <;> omega
  unfold jsEntries
  rw [List.length_append, hsort]
  exact hsplit cs

theorem lookupC_eq_of_unique_key {l : List (String × FNode)} {k : String} {c : FNode}
    (hmem : (k, c) ∈ l) (huniq : ∀ p ∈ l, p.1 = k → p.2 = c) :
    lookupC l k = some c := by
  induction l with
  | nil => simp at hmem
  | cons q rest ih =>
    by_cases hq : q.1 = k
    · simp only [lookupC, if_pos hq]
      rw [huniq q (List.mem_cons_self _ _) hq]
    · simp only [lookupC, if_neg hq]
      have hmem' : (k, c) ∈ rest := by
        rcases List.mem_cons.mp hmem with heq | hm
        · exact absurd (by rw [← heq]) hq
        · exact hm
      exact ih hmem' (fun p hp hpk => huniq p (List.mem_cons_of_mem _ hp) hpk)

theorem lookupC_spliceChildren {cs : List (String × FNode)} {k : String} (idx : Nat) (c : FNode)
    (h : containsC cs k = false) : lookupC (spliceChildren cs idx k c) k = some c := by
  have hkeys : ∀ p ∈ cs, ¬p.1 = k := by
    simp only [containsC, List.any_eq_false, decide_eq_true_eq] at h
    exact h
  unfold spliceChildren
  apply lookupC_eq_of_unique_key
  · rw [mem_jsEntries, spliceRaw_eq]
    exact List.mem_append.mpr (Or.inr (List.mem_cons_self _ _))
  · intro p hp hpk
    rw [mem_jsEntries, spliceRaw_eq] at hp
    rcases List.mem_append.mp hp with hp | hp
    · exact absurd hpk (hkeys p (mem_jsEntries.mp (List.take_subset _ _ hp)))
    · rcases List.mem_cons.mp hp with rfl | hp
      · rfl
      · exact absurd hpk (hkeys p (mem_jsEntries.mp (List.drop_subset _ _ hp)))

theorem spliceChildren_eq {cs : List (String × FNode)} {cn : String} (idx : Nat) (c : FNode)
    (hcn : isArrayIndex cn = false) (hcs : ∀ p ∈ cs, isArrayIndex p.1 = false) :
    spliceChildren cs idx cn c =
      cs.take (min idx cs.length) ++ (cn, c) :: cs.drop (min idx cs.length) := by
  unfold spliceChildren
  rw [jsEntries_of_no_index hcs, spliceRaw_eq]
  apply jsEntries_of_no_index
  intro p hp
  rcases List.mem_append.mp hp with hp | hp
  · exact hcs p (List.take_subset _ _ hp)
  · rcases List.mem_cons.mp hp with rfl | hp
    · exact hcn
    · exact hcs p (List.drop_subset _ _ hp)


/-! Section: Tree-walk facts -/

theorem walkLit_nil (n : FNode) : walkLit n [] = some n := by
  cases n <;> rfl

theorem resolveG_nil (n : FNode) :
    resolveG n [] = if n.isGroup then some n else none := by
  cases n <;> rfl

theorem modifyNode_nil (f : FNode → FNode) (n : FNode) :
    modifyNode f n [] = some (f n) := by
  cases n <;> rfl

theorem walkLit_append (p q : List String) : ∀ n : FNode,
    walkLit n (p ++ q) = (walkLit n p).bind (fun m => walkLit m q) := by
  induction p with
  | nil => intro n; simp [walkLit_nil]
  | cons k ks ih =>
    intro n
    cases n with
    | ctrl t d => simp [walkLit]
    | group d cs =>
      simp only [List.cons_append, walkLit]
      cases lookupC cs k with
      | none => rfl
      | some c => exact ih c

theorem resolveG_eq_walkLit (p : List String) : ∀ n : FNode,
    resolveG n p = (walkLit n p).bind (fun c => if c.isGroup then some c else none) := by
  induction p with
  | nil => intro n; simp [walkLit_nil, resolveG_nil]
  | cons k ks ih =>
    intro n
    cases n with
    | ctrl t d => simp [walkLit, resolveG]
    | group d cs =>
      simp only [walkLit, resolveG]
      cases lookupC cs k with
      | none => rfl
      | some c => exact ih c

theorem walkLit_of_resolveG {n m : FNode} {p : List String}
    (h : resolveG n p = some m) : walkLit n p = some m := by
  rw [resolveG_eq_walkLit] at h
  cases hw : walkLit n p with
  | none => simp [hw] at h
  | some c =>
    simp only [hw, Option.some_bind] at h
    by_cases hg : c.isGroup
    · rw [if_pos hg] at h
      exact h
    · rw [if_neg hg] at h
      exact absurd h (by simp)

theorem isGroup_of_resolveG {n m : FNode} {p : List String}
    (h : resolveG n p = some m) : m.isGroup = true := by
  rw [resolveG_eq_walkLit] at h
  cases hw : walkLit n p with
  | none => simp [hw] at h
  | some c =>
    simp only [hw, Option.some_bind] at h
    by_cases hg : c.isGroup
    · rw [if_pos hg] at h
      cases h
      exact hg
    · rw [if_neg hg] at h
      exact absurd h (by simp)

theorem resolveG_append (p q : List String) : ∀ n : FNode,
    resolveG n (p ++ q) = (resolveG n p).bind (fun m => resolveG m q) := by
  induction p with
  | nil =>
    intro n
    rw [List.nil_append, resolveG_nil]
    by_cases hg : n.isGroup
    · rw [if_pos hg]; rfl
    · rw [if_neg hg]
      cases n with
      | ctrl t d =>
        cases q with
        | nil => simp [resolveG_nil, FNode.isGroup]
        | cons a b => simp [resolveG]
      | group d cs => simp [FNode.isGroup] at hg
  | cons k ks ih =>
    intro n
    cases n with
    | ctrl t d => simp [resolveG]
    | group d cs =>
      simp only [List.cons_append, resolveG]
      cases lookupC cs k with
      | none => rfl
      | some c => exact ih c

theorem getNestedFormGo_eq_resolveG (segs : List String) :
    ∀ n : FNode, n.isGroup = true → getNestedFormGo n segs = resolveG n (flatSegs segs) := by
  induction segs with
  | nil =>
    intro n hn
    have : flatSegs [] = [] := rfl
    rw [this, resolveG_nil, if_pos hn]
    rfl
  | cons k ks ih =>
    intro n hn
    have hflat : flatSegs (k :: ks) = dotSplit k ++ flatSegs ks := by
      simp [flatSegs]
    rw [hflat, resolveG_append]
    simp only [getNestedFormGo, getAC]
    rw [resolveG_eq_walkLit (dotSplit k) n]
    cases hw : walkLit n (dotSplit k) with
    | none => rfl
    | some c =>
      simp only [Option.some_bind]
      by_cases hg : c.isGroup
      · rw [if_pos hg, if_pos hg]
        simp only [Option.some_bind]
        exact ih c hg
      · rw [if_neg hg, if_neg hg]
        rfl

theorem getControlGo_eq_walkLit (segs : List String) :
    ∀ n : FNode, getControlGo n segs = walkLit n (flatSegs segs) := by
  induction segs with
  | nil =>
    intro n
    have : flatSegs [] = [] := rfl
    rw [this, walkLit_nil]
    rfl
  | cons k ks ih =>
    intro n
    have hflat : flatSegs (k :: ks) = dotSplit k ++ flatSegs ks := by
      simp [flatSegs]
    rw [hflat, walkLit_append]
    simp only [getControlGo, getAC]
    cases hw : walkLit n (dotSplit k) with
    | none => rfl
    | some c =>
      simp only [Option.some_bind]
      exact ih c

theorem getNestedForm_eq_resolveG (s : FormService) (p : FormPath) :
    getNestedForm s p = resolveG (rootNode s) (flatSegs (normalizePath p)) :=
  getNestedFormGo_eq_resolveG (normalizePath p) (rootNode s) rfl

theorem getControl_eq_walkLit (s : FormService) (p : FormPath) :
    getControl s p = walkLit (rootNode s) (flatSegs (normalizePath p)) :=
  getControlGo_eq_walkLit (normalizePath p) (rootNode s)

/-! Section: Write-back facts -/

theorem updateG_group_shape {f : List (String × FNode) → Option (List (String × FNode))}
    {d : Bool} {cs : List (String × FNode)} {p : List String} {n' : FNode}
    (h : updateG f (.group d cs) p = some n') :
    ∃ cs', n' = .group d cs' := by
  cases p with
  | nil =>
    simp only [updateG] at h
    cases hf : f cs with
    | none => simp [hf] at h
    | some cs1 =>
      simp only [hf, Option.map_some', Option.some.injEq] at h
      exact ⟨cs1, h.symm⟩
  | cons k ks =>
    simp only [updateG] at h
    cases hl : lookupC cs k with
    | none => simp [hl] at h
    | some c =>
      simp only [hl] at h
      cases hu : updateG f c ks with
      | none => simp [hu] at h
      | some c' =>
        simp only [hu, Option.map_some', Option.some.injEq] at h
        exact ⟨setC cs k c', h.symm⟩

theorem updateG_some_spec {f : List (String × FNode) → Option (List (String × FNode))}
    (p : List String) : ∀ {n n' : FNode}, updateG f n p = some n' →
    ∃ d cs cs', resolveG n p = some (.group d cs) ∧ f cs = some cs' ∧
      resolveG n' p = some (.group d cs') := by
  induction p with
  | nil =>
    intro n n' h
    cases n with
    | ctrl t dd => simp [updateG] at h
    | group d cs =>
      simp only [updateG] at h
      cases hf : f cs with
      | none => simp [hf] at h
      | some cs1 =>
        simp only [hf, Option.map_some', Option.some.injEq] at h
        refine ⟨d, cs, cs1, by simp [resolveG_nil, FNode.isGroup], hf, ?_⟩
        rw [← h]
        simp [resolveG_nil, FNode.isGroup]
  | cons k ks ih =>
    intro n n' h
    cases n with
    | ctrl t dd => simp [updateG] at h
    | group d cs =>
      simp only [updateG] at h
      cases hl : lookupC cs k with
      | none => simp [hl] at h
      | some c =>
        simp only [hl] at h
        cases hu : updateG f c ks with
        | none => simp [hu] at h
        | some c' =>
          simp only [hu, Option.map_some', Option.some.injEq] at h
          rcases ih hu with ⟨d1, cs1, cs1', hres, hfv, hres'⟩
          refine ⟨d1, cs1, cs1', ?_, hfv, ?_⟩
          · simp only [resolveG, hl]
            exact hres
          · rw [← h]
            simp only [resolveG, lookupC_setC_self c' hl]
            exact hres'

theorem updateG_isSome_of {f : List (String × FNode) → Option (List (String × FNode))}
    (p : List String) : ∀ {n : FNode} {d : Bool} {cs : List (String × FNode)},
    resolveG n p = some (.group d cs) → (f cs).isSome = true →
    (updateG f n p).isSome = true := by
  induction p with
  | nil =>
    intro n d cs hres hf
    rw [resolveG_nil] at hres
    cases n with
    | ctrl t dd => simp [FNode.isGroup] at hres
    | group d0 cs0 =>
      simp only [FNode.isGroup, if_pos, Option.some.injEq] at hres
      cases hres
      simp only [updateG]
      cases hfv : f cs with
      | none => simp [hfv] at hf
      | some cs1 => simp [hfv]
  | cons k ks ih =>
    intro n d cs hres hf
    cases n with
    | ctrl t dd => simp [resolveG] at hres
    | group d0 cs0 =>
      simp only [resolveG] at hres
      cases hl : lookupC cs0 k with
      | none => simp [hl] at hres
      | some c =>
        simp only [hl] at hres
        simp only [updateG, hl]
        have hrec := ih hres hf
        cases hu : updateG f c ks with
        | none => simp [hu] at hrec
        | some c' => simp [hu]

theorem modifyNode_some_spec {f : FNode → FNode} (p : List String) :
    ∀ {n m : FNode}, walkLit n p = some m →
    ∃ n', modifyNode f n p = some n' ∧ walkLit n' p = some (f m) := by
  induction p with
  | nil =>
    intro n m h
    rw [walkLit_nil] at h
    cases h
    exact ⟨f n, modifyNode_nil f n, walkLit_nil (f n)⟩
  | cons k ks ih =>
    intro n m h
    cases n with
    | ctrl t dd => simp [walkLit] at h
    | group d cs =>
      simp only [walkLit] at h
      cases hl : lookupC cs k with
      | none => simp [hl] at h
      | some c =>
        simp only [hl] at h
        rcases ih h with ⟨c', hc', hw'⟩
        refine ⟨.group d (setC cs k c'), ?_, ?_⟩
        · simp only [modifyNode, hl, hc', Option.map_some']
        · simp only [walkLit, lookupC_setC_self c' hl]
          exact hw'

theorem modifyNode_cons_group_shape {f : FNode → FNode} {d : Bool}
    {cs : List (String × FNode)} {k : String} {ks : List String} {n' : FNode}
    (h : modifyNode f (.group d cs) (k :: ks) = some n') :
    ∃ cs', n' = .group d cs' := by
  simp only [modifyNode] at h
  cases hl : lookupC cs k with
  | none => simp [hl] at h
  | some c =>
    simp only [hl] at h
    cases hu : modifyNode f c ks with
    | none => simp [hu] at h
    | some c' =>
      simp only [hu, Option.map_some', Option.some.injEq] at h
      exact ⟨setC cs k c', h.symm⟩

/-! Section: `registerFormElement` characterization -/

theorem registerInGroup_none_iff {cn : String} {c : FNode} {ow : Bool} {idx : Option Int}
    {cs : List (String × FNode)} :
    registerInGroup cn c ow idx cs = none ↔ containsC cs cn = true ∧ ow = false := by
  unfold registerInGroup
  by_cases h : containsC cs cn = true <;> by_cases how : ow = true <;> simp [h, how]

theorem registerInGroup_some_of {cn : String} {c : FNode} {ow : Bool} {idx : Option Int}
    {cs : List (String × FNode)} (h : containsC cs cn = false ∨ ow = true) :
    registerInGroup cn c ow idx cs =
      some (match idx with
        | some i =>
          if 0 ≤ i
          then spliceChildren (if containsC cs cn then removeC cs cn else cs) i.toNat cn c
          else addC (if containsC cs cn then removeC cs cn else cs) cn c
        | none => addC (if containsC cs cn then removeC cs cn else cs) cn c) := by
  unfold registerInGroup
  rcases h with h | h
  · simp [h]
  · simp [h]

theorem lookupC_registerInGroup {cn : String} {c : FNode} {ow : Bool} {idx : Option Int}
    {cs cs' : List (String × FNode)} (h : registerInGroup cn c ow idx cs = some cs') :
    lookupC cs' cn = some c := by
  have hbase : containsC (if containsC cs cn then removeC cs cn else cs) cn = false := by
    by_cases hx : containsC cs cn = true
    · simp [hx, containsC_removeC]
    · simp [hx]
  have hcond : containsC cs cn = false ∨ ow = true := by
    by_cases hx : containsC cs cn = true
    · by_cases how : ow = true
      · right; exact how
      · exfalso
        have hnone : registerInGroup cn c ow idx cs = none :=
          registerInGroup_none_iff.mpr ⟨hx, by simpa using how⟩
        rw [hnone] at h
        exact absurd h (by simp)
    · left; simpa using hx
  rw [registerInGroup_some_of hcond] at h
  simp only [Option.some.injEq] at h
  subst h
  cases idx with
  | none => exact lookupC_addC_self c hbase
  | some i =>
    by_cases hi : (0 : Int) ≤ i
    · simp only [if_pos hi]
      exact lookupC_spliceChildren i.toNat c hbase
    · simp only [if_neg hi]
      exact lookupC_addC_self c hbase

theorem registerFormElement_of_updateG_none {s : FormService} {p : FormPath} {cn : String}
    {c : FNode} {o : RegisterOpts}
    (h : updateG (registerInGroup cn c (overwriteOf o) (insertAtIndexOf o))
      (rootNode s) (flatSegs (normalizePath p)) = none) :
    registerFormElement s p cn c o = (s, none) := by
  simp only [registerFormElement, h]

theorem registerFormElement_of_updateG_some {s : FormService} {p : FormPath} {cn : String}
    {c : FNode} {o : RegisterOpts} {d : Bool} {cs' : List (String × FNode)}
    (h : updateG (registerInGroup cn c (overwriteOf o) (insertAtIndexOf o))
      (rootNode s) (flatSegs (normalizePath p)) = some (.group d cs')) :
    registerFormElement s p cn c o =
      ({ mainForm := cs'
         eventHistory := s.eventHistory ++
           [⟨.formElement, dotJoin (normalizePath p ++ [cn]), some c⟩]
         subscribers := emitTo s.subscribers
           ⟨.formElement, dotJoin (normalizePath p ++ [cn]), some c⟩ },
       some ⟨.formElement, dotJoin (normalizePath p ++ [cn]), some c⟩) := by
  simp only [registerFormElement, h]

theorem registerFormElement_none_iff {s : FormService} {p : FormPath} {cn : String}
    {c : FNode} {o : RegisterOpts} :
    (registerFormElement s p cn c o).2 = none ↔
      updateG (registerInGroup cn c (overwriteOf o) (insertAtIndexOf o))
        (rootNode s) (flatSegs (normalizePath p)) = none := by
  cases hu : updateG (registerInGroup cn c (overwriteOf o) (insertAtIndexOf o))
      (rootNode s) (flatSegs (normalizePath p)) with
  | none => simp [registerFormElement_of_updateG_none hu]
  | some n' =>
    rcases @updateG_group_shape _ false s.mainForm _ _ hu with ⟨cs', rfl⟩
    rw [registerFormElement_of_updateG_some hu]
    simp

theorem registerFormElement_state_of_none {s : FormService} {p : FormPath} {cn : String}
    {c : FNode} {o : RegisterOpts} (h : (registerFormElement s p cn c o).2 = none) :
    (registerFormElement s p cn c o).1 = s := by
  have hu := registerFormElement_none_iff.mp h
  rw [registerFormElement_of_updateG_none hu]

/-! Section: `removeFormElement` and `disableAllExcept` characterization -/

theorem removeFormElement_of_getLast_none {s : FormService} {p : FormPath}
    (h : (normalizePath p).getLast? = none) :
    removeFormElement s p = (s, false) := by
  simp only [removeFormElement, h]

theorem removeFormElement_of_empty_name {s : FormService} {p : FormPath}
    (h : (normalizePath p).getLast? = some "") :
    removeFormElement s p = (s, false) := by
  simp only [removeFormElement, h, if_pos]

theorem removeFormElement_of_updateG_none {s : FormService} {p : FormPath} {cn : String}
    (h : (normalizePath p).getLast? = some cn) (hcn : ¬cn = "")
    (hu : updateG (fun cs => if containsC cs cn then some (removeC cs cn) else none)
      (rootNode s) (flatSegs (normalizePath p).dropLast) = none) :
    removeFormElement s p = (s, false) := by
  simp only [removeFormElement, h, if_neg hcn, hu]

theorem removeFormElement_of_updateG_some {s : FormService} {p : FormPath} {cn : String}
    {d : Bool} {cs' : List (String × FNode)}
    (h : (normalizePath p).getLast? = some cn) (hcn : ¬cn = "")
    (hu : updateG (fun cs => if containsC cs cn then some (removeC cs cn) else none)
      (rootNode s) (flatSegs (normalizePath p).dropLast) = some (.group d cs')) :
    removeFormElement s p = ({ s with mainForm := cs' }, true) := by
  simp only [removeFormElement, h, if_neg hcn, hu]

theorem removeFormElement_frame (s : FormService) (p : FormPath) :
    (removeFormElement s p).1.eventHistory = s.eventHistory ∧
    (removeFormElement s p).1.subscribers = s.subscribers := by
  cases hl : (normalizePath p).getLast? with
  | none => rw [removeFormElement_of_getLast_none hl]; exact ⟨rfl, rfl⟩
  | some cn =>
    by_cases hcn : cn = ""
    · subst hcn
      rw [removeFormElement_of_empty_name hl]
      exact ⟨rfl, rfl⟩
    · cases hu : updateG (fun cs => if containsC cs cn then some (removeC cs cn) else none)
          (rootNode s) (flatSegs (normalizePath p).dropLast) with
      | none => rw [removeFormElement_of_updateG_none hl hcn hu]; exact ⟨rfl, rfl⟩
      | some n' =>
        rcases @updateG_group_shape _ false s.mainForm _ _ hu with ⟨cs', rfl⟩
        rw [removeFormElement_of_updateG_some hl hcn hu]
        exact ⟨rfl, rfl⟩

theorem disableAllExcept_of_getControl_none {s : FormService} {fp : String}
    {ex : List String} (h : getControl s (.str fp) = none) :
    disableAllExcept s fp ex = s := by
  simp only [disableAllExcept, h]

theorem disableAllExcept_of_getControl_ctrl {s : FormService} {fp : String}
    {ex : List String} {t : Nat} {d : Bool} (h : getControl s (.str fp) = some (.ctrl t d)) :
    disableAllExcept s fp ex = s := by
  simp only [disableAllExcept, h]

theorem disableAllExcept_of_getControl_group {s : FormService} {fp : String}
    {ex : List String} {d : Bool} {cs : List (String × FNode)}
    (h : getControl s (.str fp) = some (.group d cs)) :
    disableAllExcept s fp ex =
      match modifyNode (fun _ => disableLoop ex (.group d cs) (cs.map Prod.fst))
          (rootNode s) (dotSplit fp) with
      | some (.group _ root') => { s with mainForm := root' }
      | _ => s := by
  simp only [disableAllExcept, h]

theorem disableAllExcept_frame (s : FormService) (fp : String) (ex : List String) :
    (disableAllExcept s fp ex).eventHistory = s.eventHistory ∧
    (disableAllExcept s fp ex).subscribers = s.subscribers := by
  cases hg : getControl s (.str fp) with
  | none => rw [disableAllExcept_of_getControl_none hg]; exact ⟨rfl, rfl⟩
  | some g =>
    cases g with
    | ctrl t d => rw [disableAllExcept_of_getControl_ctrl hg]; exact ⟨rfl, rfl⟩
    | group d cs =>
      rw [disableAllExcept_of_getControl_group hg]
      cases hm : modifyNode (fun _ => disableLoop ex (.group d cs) (cs.map Prod.fst))
          (rootNode s) (dotSplit fp) with
      | none => exact ⟨rfl, rfl⟩
      | some n' => cases n' <;> exact ⟨rfl, rfl⟩

theorem registerFormElement_some_inv {s : FormService} {p : FormPath} {cn : String}
    {c : FNode} {o : RegisterOpts} {e : FormEvent}
    (h : (registerFormElement s p cn c o).2 = some e) :
    e = ⟨.formElement, dotJoin (normalizePath p ++ [cn]), some c⟩ ∧
    (registerFormElement s p cn c o).1.eventHistory = s.eventHistory ++ [e] ∧
    (registerFormElement s p cn c o).1.subscribers = emitTo s.subscribers e := by
  cases hu : updateG (registerInGroup cn c (overwriteOf o) (insertAtIndexOf o))
      (rootNode s) (flatSegs (normalizePath p)) with
  | none =>
    rw [registerFormElement_of_updateG_none hu] at h
    exact absurd h (by simp)
  | some n' =>
    rcases @updateG_group_shape _ false s.mainForm _ _ hu with ⟨cs', rfl⟩
    rw [registerFormElement_of_updateG_some hu] at h ⊢
    simp only [Option.some.injEq] at h
    subst h
    exact ⟨rfl, rfl, rfl⟩

/-! Section: Trace-level facts -/

theorem step_eventHistory (s : FormService) (op : Op) :
    (step s op).eventHistory = s.eventHistory ++ emitted s op := by
  cases op with
  | registerRoot name g => simp [step, emitted, registerRootForms]
  | registerElement p cn c o =>
    simp only [step, emitted]
    cases he : (registerFormElement s p cn c o).2 with
    | none =>
      rw [registerFormElement_state_of_none he]
      simp
    | some e =>
      rcases registerFormElement_some_inv he with ⟨_, hh, _⟩
      rw [hh]
      simp
  | removeElement p =>
    simp only [step, emitted]
    rw [(removeFormElement_frame s p).1]
    simp
  | disableExcept fp ex =>
    simp only [step, emitted]
    rw [(disableAllExcept_frame s fp ex).1]
    simp
  | subscribe => simp [step, emitted]

theorem getElem?_emitTo (subs : List (List FormEvent)) (ev : FormEvent) (i : Nat) :
    (emitTo subs ev)[i]? = (subs[i]?).map (fun l => l ++ [ev]) := by
  simp [emitTo]

theorem step_subscribers_get (s : FormService) (op : Op) (i : Nat) (l : List FormEvent)
    (h : s.subscribers[i]? = some l) :
    (step s op).subscribers[i]? = some (l ++ emitted s op) := by
  cases op with
  | registerRoot name g =>
    simp only [step, emitted, registerRootForms]
    rw [getElem?_emitTo, h]
    rfl
  | registerElement p cn c o =>
    simp only [step, emitted]
    cases he : (registerFormElement s p cn c o).2 with
    | none =>
      rw [registerFormElement_state_of_none he]
      simpa using h
    | some e =>
      rcases registerFormElement_some_inv he with ⟨_, _, hs⟩
      rw [hs, getElem?_emitTo, h]
      rfl
  | removeElement p =>
    simp only [step, emitted]
    rw [(removeFormElement_frame s p).2]
    simpa using h
  | disableExcept fp ex =>
    simp only [step, emitted]
    rw [(disableAllExcept_frame s fp ex).2]
    simpa using h
  | subscribe =>
    simp only [step, emitted]
    have hi : i < s.subscribers.length := by
      by_contra hge
      rw [List.getElem?_eq_none (by omega)] at h
      exact absurd h (by simp)
    rw [List.getElem?_append, if_pos hi]
    simpa using h

theorem run_eventHistory (ops : List Op) : ∀ s : FormService,
    (run s ops).eventHistory = s.eventHistory ++ collect s ops := by
  induction ops with
  | nil => intro s; simp [run, collect]
  | cons op rest ih =>
    intro s
    simp only [run, collect]
    rw [ih (step s op), step_eventHistory]
    simp

theorem run_subscribers_get (ops : List Op) : ∀ (s : FormService) (i : Nat) (l : List FormEvent),
    s.subscribers[i]? = some l →
    (run s ops).subscribers[i]? = some (l ++ collect s ops) := by
  induction ops with
  | nil => intro s i l h; simpa [run, collect] using h
  | cons op rest ih =>
    intro s i l h
    simp only [run, collect]
    rw [ih (step s op) i _ (step_subscribers_get s op i l h)]
    simp

/-! Section: `disableAllExcept` loop characterization -/

theorem containsC_eq_false_of_not_mem {cs : List (String × FNode)} {k : String}
    (h : k ∉ cs.map Prod.fst) : containsC cs k = false := by
  simp only [containsC, List.any_eq_false, decide_eq_true_eq]
  intro p hp hpk
  exact h (List.mem_map.mpr ⟨p, hp, hpk⟩)

theorem modifyNode_single {f : FNode → FNode} {d : Bool} {cs : List (String × FNode)}
    (k : String) :
    modifyNode f (.group d cs) [k] =
      match lookupC cs k with
      | some c => some (.group d (setC cs k (f c)))
      | none => none := by
  simp only [modifyNode]
  cases lookupC cs k with
  | none => rfl
  | some c => simp [modifyNode_nil]

theorem disableLoop_cons_skip {ex ks : List String} (hks : ∀ k' ∈ ks, dotSplit k' = [k']) :
    ∀ (d : Bool) (k : String) (n : FNode) (cs : List (String × FNode)), k ∉ ks →
    ∃ cs₂, disableLoop ex (.group d cs) ks = .group d cs₂ ∧
      disableLoop ex (.group d ((k, n) :: cs)) ks = .group d ((k, n) :: cs₂) := by
  induction ks with
  | nil => intro d k n cs _; exact ⟨cs, rfl, rfl⟩
  | cons cn rest ih =>
    intro d k n cs hk
    have hcn : dotSplit cn = [cn] := hks cn (List.mem_cons_self _ _)
    have hrest : ∀ k' ∈ rest, dotSplit k' = [k'] := fun k' h => hks k' (List.mem_cons_of_mem _ h)
    have hkcn : ¬k = cn := fun h => hk (h ▸ List.mem_cons_self _ _)
    have hkrest : k ∉ rest := fun h => hk (List.mem_cons_of_mem _ h)
    simp only [disableLoop]
    by_cases hex : ex.contains cn
    · simp only [hex, if_pos]
      exact ih hrest d k n cs hkrest
    · simp only [hex, Bool.false_eq_true, if_false]
      rw [hcn, modifyNode_single cn, modifyNode_single cn]
      have hlk : lookupC ((k, n) :: cs) cn = lookupC cs cn := by
        simp [lookupC, hkcn]
      cases hl : lookupC cs cn with
      | none =>
        rw [hlk, hl]
        simp only [Option.getD_none]
        exact ih hrest d k n cs hkrest
      | some c =>
        rw [hlk, hl]
        simp only [Option.getD_some]
        have hset : setC ((k, n) :: cs) cn (disableNode c) =
            (k, n) :: setC cs cn (disableNode c) := by
          simp [setC, hkcn]
        rw [hset]
        exact ih hrest d k n (setC cs cn (disableNode c)) hkrest

theorem disableLoop_map {ex : List String} :
    ∀ (d : Bool) (cs : List (String × FNode)),
      (cs.map Prod.fst).Nodup → (∀ kn ∈ cs, dotSplit kn.1 = [kn.1]) →
      disableLoop ex (.group d cs) (cs.map Prod.fst) =
        .group d (cs.map (fun kn =>
          (kn.1, if ex.contains kn.1 then kn.2 else disableNode kn.2))) := by
  intro d cs
  induction cs with
  | nil => intro _ _; rfl
  | cons kn rest ih =>
    intro hnd hdf
    obtain ⟨k, n⟩ := kn
    simp only [List.map_cons, List.nodup_cons] at hnd
    have hkmem : k ∉ rest.map Prod.fst := hnd.1
    have hndr : (rest.map Prod.fst).Nodup := hnd.2
    have hdk : dotSplit k = [k] := hdf (k, n) (List.mem_cons_self _ _)
    have hdr : ∀ kn ∈ rest, dotSplit kn.1 = [kn.1] :=
      fun kn h => hdf kn (List.mem_cons_of_mem _ h)
    have hrestkeys : ∀ k' ∈ rest.map Prod.fst, dotSplit k' = [k'] := by
      intro k' h
      rcases List.mem_map.mp h with ⟨p, hp, rfl⟩
      exact hdr p hp
    simp only [disableLoop]
    by_cases hex : ex.contains k = true
    · simp only [hex, if_pos]
      rcases disableLoop_cons_skip hrestkeys d k n rest hkmem with ⟨cs₂, hA, hB⟩
      rw [ih hndr hdr] at hA
      injection hA with h1 h2
      rw [hB, ← h2]
      simp only [List.map_cons, hex, if_pos]
    · simp only [hex, Bool.false_eq_true, if_false]
      rw [hdk, modifyNode_single k]
      have hl : lookupC ((k, n) :: rest) k = some n := by simp [lookupC]
      rw [hl]
      simp only [Option.getD_some]
      have hset : setC ((k, n) :: rest) k (disableNode n) =
          (k, disableNode n) :: rest := by
        have hrest0 : setC rest k (disableNode n) = rest :=
          setC_of_not_contains _ (containsC_eq_false_of_not_mem hkmem)
        simp only [setC, List.map_cons, if_pos rfl]
        simp only [setC] at hrest0
        rw [hrest0]
        simp
      rw [hset]
      rcases disableLoop_cons_skip hrestkeys d k (disableNode n) rest hkmem with ⟨cs₂, hA, hB⟩
      rw [ih hndr hdr] at hA
      injection hA with h1 h2
      rw [hB, ← h2]
      simp only [List.map_cons, hex, Bool.false_eq_true, if_false]

/-! Section: Path-form congruence -/

theorem registerFormElement_congr_path {s : FormService} {cn : String} {c : FNode}
    {o : RegisterOpts} {p q : FormPath} (h : normalizePath p = normalizePath q) :
    registerFormElement s p cn c o = registerFormElement s q cn c o := by
  unfold registerFormElement
  rw [h]

theorem removeFormElement_congr_path {s : FormService} {p q : FormPath}
    (h : normalizePath p = normalizePath q) :
    removeFormElement s p = removeFormElement s q := by
  unfold removeFormElement
  rw [h]

theorem getControl_congr_path {s : FormService} {p q : FormPath}
    (h : normalizePath p = normalizePath q) :
    getControl s p = getControl s q := by
  unfold getControl
  rw [h]

/-! Section: Claims -/

/-- C4: after any sequence of operations on one registry, `getFormEventHistory`
returns exactly the events of the successful `registerRootForms` and
`registerFormElement` calls, one entry per successful call, in call order
(`collect`), appended to whatever history existed before; no entry is ever
removed, replaced, or reordered by any operation (`removeFormElement` and
`disableAllExcept` emit nothing). -/
theorem claim4_event_history_exact :
    (∀ (s : FormService) (ops : List Op),
      getFormEventHistory (run s ops) = getFormEventHistory s ++ collect s ops) ∧
    (∀ (s : FormService) (name : String) (g : FNode),
      emitted s (.registerRoot name g) = [⟨.form, name, none⟩]) ∧
    (∀ (s : FormService) (p : FormPath) (cn : String) (c : FNode) (o : RegisterOpts),
      emitted s (.registerElement p cn c o) = ((registerFormElement s p cn c o).2).toList) ∧
    (∀ (s : FormService) (p : FormPath), emitted s (.removeElement p) = []) ∧
    (∀ (s : FormService) (fp : String) (ex : List String),
      emitted s (.disableExcept fp ex) = []) :=
  ⟨fun s ops => run_eventHistory ops s, fun _ _ _ => rfl, fun _ _ _ _ _ => rfl,
    fun _ _ => rfl, fun _ _ _ => rfl⟩

/-- C8: an observer subscribing after the operations `pre` have run receives
none of the already-emitted events at subscription time (its delivered list is
`[]`), and over any subsequent operations `suf` it receives exactly the events
emitted by the successful register calls in `suf`, once each, in emission
order, delivered within the triggering call (`step`). -/
theorem claim8_subscriber_no_replay : ∀ (s : FormService) (pre suf : List Op),
    (step (run s pre) Op.subscribe).subscribers[(run s pre).subscribers.length]? =
      some [] ∧
    (run (step (run s pre) Op.subscribe) suf).subscribers[(run s pre).subscribers.length]? =
      some (collect (step (run s pre) Op.subscribe) suf) := by
  intro s pre suf
  have hbase : (step (run s pre) Op.subscribe).subscribers[(run s pre).subscribers.length]? =
      some [] := by
    simp only [step]
    rw [List.getElem?_append, if_neg (by omega)]
    simp
  refine ⟨hbase, ?_⟩
  have := run_subscribers_get suf (step (run s pre) Op.subscribe)
    (run s pre).subscribers.length [] hbase
  simpa using this

/-- C9: a negative `insertAtIndex` behaves exactly as an absent one — the
call's entire result (returned event and successor state, hence an append at
the end of the target group) coincides with the no-index call's. -/
theorem claim9_negative_index_appends : ∀ (s : FormService) (p : FormPath) (cn : String)
    (c : FNode) (ov : Option Bool) (i : Int), i < 0 →
    registerFormElement s p cn c (.opts ov (some i)) =
      registerFormElement s p cn c (.opts ov none) := by
  intro s p cn c ov i hi
  have hf : registerInGroup cn c (overwriteOf (.opts ov (some i)))
        (insertAtIndexOf (.opts ov (some i))) =
      registerInGroup cn c (overwriteOf (.opts ov none))
        (insertAtIndexOf (.opts ov none)) := by
    funext cs
    unfold registerInGroup
    simp only [insertAtIndexOf, overwriteOf]
    rw [if_neg (by omega : ¬(0 : Int) ≤ i)]
  simp only [registerFormElement]
  rw [hf]

/-- C9 witness: at a concrete state with one root group, `insertAtIndex = -1`
gives the same result as no index at all. -/
theorem claim9_witness :
    registerFormElement (registerRootForms initService "main" (.group false []))
        (.str "main") "a" (.ctrl 1 false) (.opts none (some (-1))) =
      registerFormElement (registerRootForms initService "main" (.group false []))
        (.str "main") "a" (.ctrl 1 false) (.opts none none) :=
  claim9_negative_index_appends _ _ _ _ _ (-1) (by decide)

/-- C10: the legacy bare-boolean fourth argument `b` is equivalent to the
options object `{overwrite := b}` with no `insertAtIndex`: result and
successor state coincide for every state and every path. -/
theorem claim10_bool_overwrite_equiv : ∀ (s : FormService) (p : FormPath) (cn : String)
    (c : FNode) (b : Bool),
    registerFormElement s p cn c (.bool b) =
      registerFormElement s p cn c (.opts (some b) none) :=
  fun _ _ _ _ _ => rfl

/-- A demo state used by concrete witnesses: one root group `"main"`. -/
def demoRoot : FormService := registerRootForms initService "main" (.group false [])

/-- Demo state with one control `"a"` registered under `"main"`. -/
def demoA : FormService :=
  (registerFormElement demoRoot (.str "main") "a" (.ctrl 1 false) (.bool false)).1

/-- C2: `registerFormElement` returns `null` exactly when the path does not
resolve to a `FormGroup` or the key already exists without `overwrite`; in
that case the state (tree, history, subscribers) is returned unchanged; in
every other case it appends exactly one event — the returned one — and the
resolved group afterwards maps the key to the registered control. -/
theorem claim2_failure_characterization : ∀ (s : FormService) (p : FormPath) (cn : String)
    (c : FNode) (o : RegisterOpts),
    ((registerFormElement s p cn c o).2 = none ↔
      getNestedForm s p = none ∨
      ∃ d cs, getNestedForm s p = some (.group d cs) ∧ containsC cs cn = true ∧
        overwriteOf o = false) ∧
    ((registerFormElement s p cn c o).2 = none → (registerFormElement s p cn c o).1 = s) ∧
    (∀ e, (registerFormElement s p cn c o).2 = some e →
      (registerFormElement s p cn c o).1.eventHistory = s.eventHistory ++ [e] ∧
      ∃ d cs', getNestedForm (registerFormElement s p cn c o).1 p = some (.group d cs') ∧
        lookupC cs' cn = some c) := by
  intro s p cn c o
  refine ⟨?_, fun h => registerFormElement_state_of_none h, ?_⟩
  · rw [registerFormElement_none_iff, getNestedForm_eq_resolveG]
    constructor
    · intro hu
      cases hres : resolveG (rootNode s) (flatSegs (normalizePath p)) with
      | none => exact Or.inl rfl
      | some m =>
        have hg := isGroup_of_resolveG hres
        cases m with
        | ctrl t d => simp [FNode.isGroup] at hg
        | group d cs =>
          right
          refine ⟨d, cs, rfl, ?_⟩
          by_cases hf : (registerInGroup cn c (overwriteOf o) (insertAtIndexOf o) cs).isSome = true
          · exfalso
            have hsome := updateG_isSome_of _ hres hf
            rw [hu] at hsome
            simp at hsome
          · have hfn : registerInGroup cn c (overwriteOf o) (insertAtIndexOf o) cs = none := by
              cases hh : registerInGroup cn c (overwriteOf o) (insertAtIndexOf o) cs with
              | none => rfl
              | some v => rw [hh] at hf; simp at hf
            exact registerInGroup_none_iff.mp hfn
    · intro hcase
      cases hu : updateG (registerInGroup cn c (overwriteOf o) (insertAtIndexOf o))
          (rootNode s) (flatSegs (normalizePath p)) with
      | none => rfl
      | some n' =>
        exfalso
        rcases updateG_some_spec _ hu with ⟨d1, cs1, cs1', hres', hf, _⟩
        rcases hcase with hres | ⟨d, cs, hres, hcont, how⟩
        · rw [hres] at hres'
          exact absurd hres' (by simp)
        · rw [hres] at hres'
          injection hres' with hgr
          injection hgr with hd hcs
          have hfn : registerInGroup cn c (overwriteOf o) (insertAtIndexOf o) cs = none :=
            registerInGroup_none_iff.mpr ⟨hcont, how⟩
          rw [← hcs] at hf
          rw [hfn] at hf
          exact absurd hf (by simp)
  · intro e he
    rcases registerFormElement_some_inv he with ⟨hee, hh, _⟩
    refine ⟨hh, ?_⟩
    cases hu : updateG (registerInGroup cn c (overwriteOf o) (insertAtIndexOf o))
        (rootNode s) (flatSegs (normalizePath p)) with
    | none =>
      rw [registerFormElement_of_updateG_none hu] at he
      exact absurd he (by simp)
    | some n' =>
      rcases @updateG_group_shape _ false s.mainForm _ _ hu with ⟨cs', rfl⟩
      rcases updateG_some_spec _ hu with ⟨d1, cs1, cs1', hres, hf, hres'⟩
      rw [getNestedForm_eq_resolveG]
      have hroot : rootNode (registerFormElement s p cn c o).1 = .group false cs' := by
        rw [registerFormElement_of_updateG_some hu]
        rfl
      rw [hroot]
      exact ⟨d1, cs1', hres', lookupC_registerInGroup hf⟩

/-- C2 witness: a successful registration at a concrete state appends exactly
its event to the history. -/
theorem claim2_witness :
    (registerFormElement demoRoot (.str "main") "a" (.ctrl 1 false) (.bool false)).1.eventHistory =
      demoRoot.eventHistory ++ [⟨.formElement, "main.a", some (.ctrl 1 false)⟩] :=
  (((claim2_failure_characterization demoRoot (.str "main") "a" (.ctrl 1 false)
      (.bool false)).2.2) ⟨.formElement, "main.a", some (.ctrl 1 false)⟩ rfl).1

/-- C1 counterexample: as stated, the round trip fails for a key containing
the delimiter.  Registering the control name `"a.b"` under the resolving
group path `["g"]` succeeds, yet `getControl` on the appended path returns
`none`, because Angular's `get` splits the segment `"a.b"` into `a`/`b`
while `addControl` stored the literal key `"a.b"`. -/
theorem claim1_counterexample :
    ((registerFormElement (registerRootForms initService "g" (.group false []))
        (.arr ["g"]) "a.b" (.ctrl 7 false) (.bool false)).2).isSome = true ∧
    getControl (registerFormElement (registerRootForms initService "g" (.group false []))
        (.arr ["g"]) "a.b" (.ctrl 7 false) (.bool false)).1
      (.arr (normalizePath (.arr ["g"]) ++ ["a.b"])) = none :=
  ⟨rfl, rfl⟩

/-- C1 (amended): when the registered key contains no `'.'` delimiter, a
successful `registerFormElement` is immediately observable: `getControl` on
the segment sequence `normalizePath p ++ [k]` returns exactly the registered
control; and — for every key — success implies the path resolved to a
`FormGroup` (`getNestedForm`). -/
theorem claim1_register_then_get :
    (∀ (s : FormService) (p : FormPath) (cn : String) (c : FNode) (o : RegisterOpts)
      (e : FormEvent), dotSplit cn = [cn] →
      (registerFormElement s p cn c o).2 = some e →
      getControl (registerFormElement s p cn c o).1 (.arr (normalizePath p ++ [cn])) =
        some c) ∧
    (∀ (s : FormService) (p : FormPath) (cn : String) (c : FNode) (o : RegisterOpts),
      ((registerFormElement s p cn c o).2).isSome = true →
      ∃ g, getNestedForm s p = some g ∧ g.isGroup = true) := by
  constructor
  · intro s p cn c o e hcn he
    cases hu : updateG (registerInGroup cn c (overwriteOf o) (insertAtIndexOf o))
        (rootNode s) (flatSegs (normalizePath p)) with
    | none =>
      rw [registerFormElement_of_updateG_none hu] at he
      exact absurd he (by simp)
    | some n' =>
      rcases @updateG_group_shape _ false s.mainForm _ _ hu with ⟨cs', rfl⟩
      rcases updateG_some_spec _ hu with ⟨d1, cs1, cs1', hres, hf, hres'⟩
      rw [getControl_eq_walkLit]
      have hnp : normalizePath (.arr (normalizePath p ++ [cn])) = normalizePath p ++ [cn] := rfl
      rw [hnp, flatSegs_append, walkLit_append]
      have hroot : rootNode (registerFormElement s p cn c o).1 = .group false cs' := by
        rw [registerFormElement_of_updateG_some hu]
        rfl
      rw [hroot, walkLit_of_resolveG hres']
      simp only [Option.some_bind]
      have hf1 : flatSegs [cn] = [cn] := by simp [flatSegs, hcn]
      rw [hf1]
      simp only [walkLit, lookupC_registerInGroup hf, walkLit_nil]
  · intro s p cn c o hs
    cases hu : updateG (registerInGroup cn c (overwriteOf o) (insertAtIndexOf o))
        (rootNode s) (flatSegs (normalizePath p)) with
    | none =>
      rw [registerFormElement_of_updateG_none hu] at hs
      simp at hs
    | some n' =>
      rcases updateG_some_spec _ hu with ⟨d1, cs1, cs1', hres, hf, hres'⟩
      rw [getNestedForm_eq_resolveG]
      exact ⟨.group d1 cs1, hres, rfl⟩

/-- C1 witness: registering the dot-free key `"a"` under `"main"` and reading
it back through `getControl` returns the same control. -/
theorem claim1_witness :
    getControl (registerFormElement demoRoot (.str "main") "a" (.ctrl 1 false)
        (.bool false)).1 (.arr (normalizePath (.str "main") ++ ["a"])) =
      some (.ctrl 1 false) :=
  claim1_register_then_get.1 demoRoot (.str "main") "a" (.ctrl 1 false) (.bool false)
    ⟨.formElement, "main.a", some (.ctrl 1 false)⟩ (by decide) rfl

/-- State with a group `"g"` holding the string-keyed children `a`, `b`, used
to refute C3 as stated. -/
def svcAB : FormService :=
  ⟨[("g", .group false [("a", .ctrl 0 false), ("b", .ctrl 1 false)])], [], []⟩

/-- C3 counterexample: registering the array-index-like control name `"0"`
with `insertAtIndex = 1` into the group `g` with children `a`, `b` succeeds,
but the resulting iteration order is `["0", "a", "b"]`: ECMA-262 enumerates
integer-index keys first, so the new key lands at position 0, not
`min 1 2 = 1` — which would give `["a", "0", "b"]` as the claim demands. -/
theorem claim3_counterexample :
    ((registerFormElement svcAB (.str "g") "0" (.ctrl 2 false)
        (.opts none (some 1))).2).isSome = true ∧
    (getNestedForm (registerFormElement svcAB (.str "g") "0" (.ctrl 2 false)
          (.opts none (some 1))).1 (.str "g")).map
        (fun g => g.childrenD.map Prod.fst) = some ["0", "a", "b"] ∧
    ¬(some ["0", "a", "b"] = some (["a", "0", "b"] : List String)) :=
  ⟨rfl, rfl, by decide⟩

/-- C3 (amended): provided neither the registered control name nor any
existing key of the resolved group is an ECMA-262 array-index-like string
(JS objects enumerate those first, in ascending numeric order, ahead of the
splice position), a successful `registerFormElement` with
`insertAtIndex = i ≥ 0` places the new key at position `min i c` of the
group's iteration order, where `c` counts the children after any
overwrite-removal (`cs0`); all other children keep their relative order
(the result is `take`/`drop` around the inserted pair), and an index `≥ c`
appends at the end. -/
theorem claim3_insert_at_index : ∀ (s : FormService) (p : FormPath) (cn : String)
    (c : FNode) (ov : Option Bool) (i : Int) (e : FormEvent) (d : Bool)
    (cs : List (String × FNode)), 0 ≤ i →
    isArrayIndex cn = false →
    getNestedForm s p = some (.group d cs) →
    (∀ kn ∈ cs, isArrayIndex kn.1 = false) →
    (registerFormElement s p cn c (.opts ov (some i))).2 = some e →
    ∃ cs0 m, cs0 = (if containsC cs cn then removeC cs cn else cs) ∧
      m = min i.toNat cs0.length ∧
      getNestedForm (registerFormElement s p cn c (.opts ov (some i))).1 p =
        some (.group d (cs0.take m ++ (cn, c) :: cs0.drop m)) := by
  intro s p cn c ov i e d cs hi hcn hg hcs he
  cases hu : updateG (registerInGroup cn c (overwriteOf (.opts ov (some i)))
      (insertAtIndexOf (.opts ov (some i)))) (rootNode s) (flatSegs (normalizePath p)) with
  | none =>
    rw [registerFormElement_of_updateG_none hu] at he
    exact absurd he (by simp)
  | some n' =>
    rcases @updateG_group_shape _ false s.mainForm _ _ hu with ⟨cs', rfl⟩
    rcases updateG_some_spec _ hu with ⟨d1, cs1, cs1', hres, hf, hres'⟩
    rw [getNestedForm_eq_resolveG] at hg
    rw [hg] at hres
    injection hres with hgr
    injection hgr with hd hcs1
    subst hd
    subst hcs1
    have hcond : containsC cs cn = false ∨ overwriteOf (.opts ov (some i)) = true := by
      by_cases hx : containsC cs cn = true
      · by_cases how : overwriteOf (.opts ov (some i)) = true
        · exact Or.inr how
        · exfalso
          have hfn : registerInGroup cn c (overwriteOf (.opts ov (some i)))
              (insertAtIndexOf (.opts ov (some i))) cs = none :=
            registerInGroup_none_iff.mpr ⟨hx, by simpa using how⟩
          rw [hfn] at hf
          exact absurd hf (by simp)
      · exact Or.inl (by simpa using hx)
    rw [registerInGroup_some_of hcond] at hf
    simp only [insertAtIndexOf, Option.some.injEq] at hf
    rw [if_pos hi] at hf
    have hcs0 : ∀ p' ∈ (if containsC cs cn then removeC cs cn else cs),
        isArrayIndex p'.1 = false := by
      intro p' hp'
      by_cases hx : containsC cs cn = true
      · rw [if_pos hx] at hp'
        exact hcs p' (List.mem_of_mem_filter hp')
      · rw [if_neg hx] at hp'
        exact hcs p' hp'
    refine ⟨_, _, rfl, rfl, ?_⟩
    have hroot : rootNode (registerFormElement s p cn c (.opts ov (some i))).1 =
        .group false cs' := by
      rw [registerFormElement_of_updateG_some hu]
      rfl
    rw [getNestedForm_eq_resolveG, hroot, hres', ← hf,
      spliceChildren_eq i.toNat c hcn hcs0]

/-- C3 witness: inserting the non-numeric key `"b"` at index `0` next to the
existing `"a"` puts `"b"` first, matching the spec's worked example. -/
theorem claim3_witness :
    ∃ cs0 m, cs0 = (if containsC [("a", FNode.ctrl 1 false)] "b"
        then removeC [("a", FNode.ctrl 1 false)] "b"
        else [("a", FNode.ctrl 1 false)]) ∧
      m = min (Int.toNat 0) cs0.length ∧
      getNestedForm (registerFormElement demoA (.str "main") "b" (.ctrl 2 false)
          (.opts none (some 0))).1 (.str "main") =
        some (.group false (cs0.take m ++ ("b", .ctrl 2 false) :: cs0.drop m)) :=
  claim3_insert_at_index demoA (.str "main") "b" (.ctrl 2 false) none 0
    ⟨.formElement, "main.b", some (.ctrl 2 false)⟩ false [("a", .ctrl 1 false)]
    (by decide) (by decide) rfl (by decide) rfl

/-- The JS `split('.')` never yields an empty segment list. -/
theorem dotSplit_ne_nil (s : String) : dotSplit s ≠ [] := by
  unfold dotSplit
  intro h
  exact splitChar_ne_nil '.' s.data (List.map_eq_nil_iff.mp h)

/-- State with a literally dot-named child under the group `"x"`. -/
def svcDotKey : FormService := ⟨[("x", .group false [("a.b", .ctrl 0 false)])], [], []⟩

/-- C5 counterexample: for the segment sequence `["x", "a.b"]` the array form
and its corresponding dot-joined string `"x.a.b"` give different
`removeFormElement` results on the same state: the array form removes the
literal key `"a.b"` from group `"x"` and returns `true`, the string form
re-splits into `x`/`a`/`b`, fails to resolve, and returns `false`. -/
theorem claim5_counterexample :
    dotJoin ["x", "a.b"] = "x.a.b" ∧
    (removeFormElement svcDotKey (.arr ["x", "a.b"])).2 = true ∧
    (removeFormElement svcDotKey (.str (dotJoin ["x", "a.b"]))).2 = false :=
  ⟨rfl, rfl, rfl⟩

/-- C5 (amended): for every nonempty segment sequence whose segments contain
no `'.'` delimiter, the dot-joined string form and the array form normalize
to the same segments and give identical results and state changes for
`registerFormElement`, `removeFormElement`, and `getControl`. -/
theorem claim5_path_forms_equiv : ∀ ss : List String, ss ≠ [] →
    (∀ seg ∈ ss, dotSplit seg = [seg]) →
    normalizePath (.str (dotJoin ss)) = normalizePath (.arr ss) ∧
    (∀ (s : FormService) (cn : String) (c : FNode) (o : RegisterOpts),
      registerFormElement s (.str (dotJoin ss)) cn c o =
        registerFormElement s (.arr ss) cn c o) ∧
    (∀ s : FormService,
      removeFormElement s (.str (dotJoin ss)) = removeFormElement s (.arr ss)) ∧
    (∀ s : FormService, getControl s (.str (dotJoin ss)) = getControl s (.arr ss)) := by
  intro ss hne hdf
  have hnorm : normalizePath (.str (dotJoin ss)) = normalizePath (.arr ss) := by
    simp only [normalizePath]
    exact dotSplit_dotJoin hne hdf
  exact ⟨hnorm, fun s cn c o => registerFormElement_congr_path hnorm,
    fun s => removeFormElement_congr_path hnorm, fun s => getControl_congr_path hnorm⟩

/-- C5 witness: at a concrete state, removing by the string `"main.a"` and by
the segments `["main", "a"]` is literally the same call result. -/
theorem claim5_witness :
    removeFormElement demoA (.str (dotJoin ["main", "a"])) =
      removeFormElement demoA (.arr ["main", "a"]) :=
  ((claim5_path_forms_equiv ["main", "a"] (by decide) (by decide)).2.2.1) demoA

/-- State whose root has the single child key `""` (registerable, since
`addControl` takes any string); used to refute C6 as stated. -/
def svcEmptyKey : FormService := ⟨[("", .ctrl 3 false)], [], []⟩

/-- C6 counterexample: the path `[""]` has last segment `""`, its prefix `[]`
resolves to the root group, and that group contains the key `""` — yet
`removeFormElement` returns `false` and changes nothing, because the JS
truthiness test `controlName &&` rejects the empty string. -/
theorem claim6_counterexample :
    ((normalizePath (.arr [""])).getLast? = some "" ∧
      getNestedForm svcEmptyKey (.arr (normalizePath (.arr [""])).dropLast) =
        some (.group false [("", .ctrl 3 false)]) ∧
      containsC [("", .ctrl 3 false)] "" = true) ∧
    (removeFormElement svcEmptyKey (.arr [""])).2 = false ∧
    (removeFormElement svcEmptyKey (.arr [""])).1 = svcEmptyKey :=
  ⟨⟨rfl, rfl, rfl⟩, rfl, rfl⟩

/-- C6 (amended): `removeFormElement` returns `true` exactly when the
normalized path has a NONEMPTY last segment `k` whose prefix resolves to a
`FormGroup` containing `k`; then it detaches `k` (remaining siblings keep
their relative order — the children become `removeC cs k`) and appends no
event; in every other case — the empty-string last segment included — it
returns `false` and leaves the state unchanged. -/
theorem claim6_remove_characterization : ∀ (s : FormService) (p : FormPath),
    ((removeFormElement s p).2 = true ↔
      ∃ k d cs, (normalizePath p).getLast? = some k ∧ ¬k = "" ∧
        getNestedForm s (.arr (normalizePath p).dropLast) = some (.group d cs) ∧
        containsC cs k = true) ∧
    ((removeFormElement s p).2 = false → (removeFormElement s p).1 = s) ∧
    (∀ k d cs, (normalizePath p).getLast? = some k → ¬k = "" →
      getNestedForm s (.arr (normalizePath p).dropLast) = some (.group d cs) →
      containsC cs k = true →
      (removeFormElement s p).1.eventHistory = s.eventHistory ∧
      (removeFormElement s p).1.subscribers = s.subscribers ∧
      getNestedForm (removeFormElement s p).1 (.arr (normalizePath p).dropLast) =
        some (.group d (removeC cs k))) := by
  intro s p
  have hdrop : ∀ s' : FormService, getNestedForm s' (.arr (normalizePath p).dropLast) =
      resolveG (rootNode s') (flatSegs (normalizePath p).dropLast) := by
    intro s'
    exact getNestedForm_eq_resolveG s' (.arr (normalizePath p).dropLast)
  refine ⟨?_, ?_, ?_⟩
  · constructor
    · intro htrue
      cases hl : (normalizePath p).getLast? with
      | none =>
        rw [removeFormElement_of_getLast_none hl] at htrue
        exact absurd htrue (by simp)
      | some k =>
        by_cases hk : k = ""
        · subst hk
          rw [removeFormElement_of_empty_name hl] at htrue
          exact absurd htrue (by simp)
        · cases hu : updateG (fun cs => if containsC cs k then some (removeC cs k) else none)
              (rootNode s) (flatSegs (normalizePath p).dropLast) with
          | none =>
            rw [removeFormElement_of_updateG_none hl hk hu] at htrue
            exact absurd htrue (by simp)
          | some n' =>
            rcases updateG_some_spec _ hu with ⟨d1, cs1, cs1', hres, hf, hres'⟩
            have hcont : containsC cs1 k = true := by
              by_cases hc : containsC cs1 k = true
              · exact hc
              · rw [if_neg (by simpa using hc)] at hf
                exact absurd hf (by simp)
            exact ⟨k, d1, cs1, rfl, hk, by rw [hdrop]; exact hres, hcont⟩
    · intro hcase
      rcases hcase with ⟨k, d, cs, hl, hk, hres, hcont⟩
      rw [hdrop] at hres
      have hsome := updateG_isSome_of
        (f := fun cs => if containsC cs k then some (removeC cs k) else none)
        (flatSegs (normalizePath p).dropLast) hres (by simp [hcont])
      cases hu : updateG (fun cs => if containsC cs k then some (removeC cs k) else none)
          (rootNode s) (flatSegs (normalizePath p).dropLast) with
      | none => rw [hu] at hsome; exact absurd hsome (by simp)
      | some n' =>
        rcases @updateG_group_shape _ false s.mainForm _ _ hu with ⟨cs', rfl⟩
        rw [removeFormElement_of_updateG_some hl hk hu]
  · intro hfalse
    cases hl : (normalizePath p).getLast? with
    | none => rw [removeFormElement_of_getLast_none hl]
    | some k =>
      by_cases hk : k = ""
      · subst hk
        rw [removeFormElement_of_empty_name hl]
      · cases hu : updateG (fun cs => if containsC cs k then some (removeC cs k) else none)
            (rootNode s) (flatSegs (normalizePath p).dropLast) with
        | none => rw [removeFormElement_of_updateG_none hl hk hu]
        | some n' =>
          rcases @updateG_group_shape _ false s.mainForm _ _ hu with ⟨cs', rfl⟩
          rw [removeFormElement_of_updateG_some hl hk hu] at hfalse
          exact absurd hfalse (by simp)
  · intro k d cs hl hk hres hcont
    rw [hdrop] at hres
    have hsome := updateG_isSome_of
      (f := fun cs => if containsC cs k then some (removeC cs k) else none)
      (flatSegs (normalizePath p).dropLast) hres (by simp [hcont])
    cases hu : updateG (fun cs => if containsC cs k then some (removeC cs k) else none)
        (rootNode s) (flatSegs (normalizePath p).dropLast) with
    | none => rw [hu] at hsome; exact absurd hsome (by simp)
    | some n' =>
      rcases @updateG_group_shape _ false s.mainForm _ _ hu with ⟨cs', rfl⟩
      rcases updateG_some_spec _ hu with ⟨d1, cs1, cs1', hres1, hf1, hres1'⟩
      rw [hres] at hres1
      injection hres1 with hgr
      injection hgr with hd1 hcs1
      rw [removeFormElement_of_updateG_some hl hk hu]
      refine ⟨rfl, rfl, ?_⟩
      rw [hdrop]
      have hcs1' : cs1' = removeC cs k := by
        rw [← hcs1, if_pos (hcs1 ▸ hcont)] at hf1
        injection hf1 with hh
        exact hh.symm
      have hroot : rootNode { s with mainForm := cs' } = FNode.group false cs' := rfl
      rw [hroot, hres1', ← hd1, hcs1']

/-- State with a group `"x"` containing two controls, for the C6 witness. -/
def svcXY : FormService :=
  ⟨[("x", .group false [("y", .ctrl 0 false), ("z", .ctrl 1 false)])], [], []⟩

/-- C6 witness: removing `x.y` keeps the history and subscribers untouched and
leaves the sibling `"z"` as the sole child, in order. -/
theorem claim6_witness :
    (removeFormElement svcXY (.arr ["x", "y"])).1.eventHistory = svcXY.eventHistory ∧
    (removeFormElement svcXY (.arr ["x", "y"])).1.subscribers = svcXY.subscribers ∧
    getNestedForm (removeFormElement svcXY (.arr ["x", "y"])).1
        (.arr (normalizePath (.arr ["x", "y"])).dropLast) =
      some (.group false (removeC [("y", .ctrl 0 false), ("z", .ctrl 1 false)] "y")) :=
  (claim6_remove_characterization svcXY (.arr ["x", "y"])).2.2 "y" false
    [("y", .ctrl 0 false), ("z", .ctrl 1 false)] rfl (by decide) rfl rfl

/-- State with a group `"g"` whose only child key contains a dot; used to
refute C7 as stated. -/
def svcDotChild : FormService := ⟨[("g", .group false [("a.b", .ctrl 0 false)])], [], []⟩

/-- C7 counterexample: `"g"` resolves to a `FormGroup` whose direct child
`"a.b"` is not in the (empty) exceptions list, yet after
`disableAllExcept "g" []` the state is completely unchanged and the child is
still enabled — `form.get("a.b")` re-splits the key into `a`/`b`, finds
nothing, and the `?.` makes the disable a no-op. -/
theorem claim7_counterexample :
    getControl svcDotChild (.str "g") = some (.group false [("a.b", .ctrl 0 false)]) ∧
    ("a.b" ∈ ([] : List String) → False) ∧
    disableAllExcept svcDotChild "g" [] = svcDotChild ∧
    lookupC (disableAllExcept svcDotChild "g" []).mainForm "g" =
      some (.group false [("a.b", .ctrl 0 false)]) :=
  ⟨rfl, fun h => by simp at h, rfl, rfl⟩

/-- C7 (amended): when `formPath` does not resolve, or resolves to a
non-group, `disableAllExcept` changes nothing; when it resolves to a
`FormGroup` whose direct child keys are duplicate-free and contain no `'.'`
delimiter, the call disables exactly the children whose key is not in
`exceptions` (recursively, as Angular's `disable()` does), leaves every
excepted child untouched, and emits no event (history and subscribers
unchanged). -/
theorem claim7_disable_except : ∀ (s : FormService) (fp : String) (ex : List String),
    (getControl s (.str fp) = none → disableAllExcept s fp ex = s) ∧
    (∀ g, getControl s (.str fp) = some g → g.isGroup = false →
      disableAllExcept s fp ex = s) ∧
    (∀ d cs, getControl s (.str fp) = some (.group d cs) →
      (cs.map Prod.fst).Nodup → (∀ kn ∈ cs, dotSplit kn.1 = [kn.1]) →
      (disableAllExcept s fp ex).eventHistory = s.eventHistory ∧
      (disableAllExcept s fp ex).subscribers = s.subscribers ∧
      getControl (disableAllExcept s fp ex) (.str fp) =
        some (.group d (cs.map (fun kn =>
          (kn.1, if ex.contains kn.1 then kn.2 else disableNode kn.2))))) := by
  intro s fp ex
  have hfs : ∀ s' : FormService, flatSegs (normalizePath (.str fp)) = dotSplit fp := by
    intro _
    simp only [normalizePath]
    exact flatSegs_dotSplit fp
  refine ⟨fun h => disableAllExcept_of_getControl_none h, ?_, ?_⟩
  · intro g hg hng
    cases g with
    | ctrl t d => exact disableAllExcept_of_getControl_ctrl hg
    | group d cs => simp [FNode.isGroup] at hng
  · intro d cs hg hnd hdf
    refine ⟨(disableAllExcept_frame s fp ex).1, (disableAllExcept_frame s fp ex).2, ?_⟩
    have hwalk : walkLit (rootNode s) (dotSplit fp) = some (.group d cs) := by
      have h1 := getControl_eq_walkLit s (.str fp)
      rw [hg, hfs s] at h1
      exact h1.symm
    rcases modifyNode_some_spec
        (f := fun _ => disableLoop ex (.group d cs) (cs.map Prod.fst))
        (dotSplit fp) hwalk with ⟨n', hm, hw'⟩
    have hne := dotSplit_ne_nil fp
    rcases List.exists_cons_of_ne_nil hne with ⟨hd, tl, hdp⟩
    rw [hdp] at hm
    rcases @modifyNode_cons_group_shape _ false s.mainForm _ _ _ hm with ⟨root', rfl⟩
    rw [disableAllExcept_of_getControl_group hg, hdp, hm]
    rw [getControl_eq_walkLit, hfs s, hdp]
    have hroot : rootNode { s with mainForm := root' } = FNode.group false root' := rfl
    rw [hdp] at hw'
    rw [hroot]
    rw [hw']
    have hmap := @disableLoop_map ex d cs hnd hdf
    rw [hmap]

/-- State with a group `"g"` holding two dot-free children, for the C7
witness. -/
def svcTwo : FormService :=
  ⟨[("g", .group false [("a", .ctrl 0 false), ("b", .ctrl 1 false)])], [], []⟩

/-- C7 witness: with exceptions `["a"]`, the child `"a"` keeps its state and
`"b"` is disabled; no event is recorded. -/
theorem claim7_witness :
    (disableAllExcept svcTwo "g" ["a"]).eventHistory = svcTwo.eventHistory ∧
    (disableAllExcept svcTwo "g" ["a"]).subscribers = svcTwo.subscribers ∧
    getControl (disableAllExcept svcTwo "g" ["a"]) (.str "g") =
      some (.group false ([("a", .ctrl 0 false), ("b", .ctrl 1 false)].map (fun kn =>
        (kn.1, if (["a"] : List String).contains kn.1 then kn.2 else disableNode kn.2)))) :=
  (claim7_disable_except svcTwo "g" ["a"]).2.2 false
    [("a", .ctrl 0 false), ("b", .ctrl 1 false)] rfl (by decide) (by decide)
